import Mathlib

/-!
# Verification of the memori memory engine and CLI

Shallow embedding of the `memori` repository: the `memori_cli` Python package
(present in `src/memori-python/python/memori_cli/__init__.py`) and the memory
engine behind it.  The engine itself (`PyMemori`) is a native Rust extension
whose sources are not part of the repository snapshot; only its Python callers
and tests are.  Engine operations are therefore modelled from the spec
(sections 3, 4 and 6 of `spec.md`), each such definition carries a doc comment
starting with `Modelled from the spec:`.  CLI-level logic (tag parsing, date
parsing, error codes, purge composition, export/import) is translated directly
from the Python source.

Machine reals (`f32` vectors, Python floats) are modelled as `ℚ`.  Cosine
similarity comparisons are modelled exactly through the strictly monotone map
`x ↦ sign x · x²`: for nonzero vectors, `cos(q,v) ≥ t` and the relative order
of `cos(q,a)` vs `cos(q,b)` depend only on rational quantities, so no square
roots are needed.
-/

namespace Memori

/-- Scalar JSON values, the payloads of (shallow) metadata objects.
Python's `json` distinguishes booleans, integers, floats and strings;
nested arrays/objects are not needed by any claim and are out of scope. -/
inductive JVal : Type where
  | jnull : JVal
  | jbool : Bool → JVal
  | jint : ℤ → JVal
  | jnum : ℚ → JVal
  | jstr : String → JVal
deriving DecidableEq, Repr

/-- A metadata object: a shallow JSON object as an association list
(`spec.md` §3: "Metadata filter equality treats `metadata` as a shallow JSON
object"). -/
abbrev Metadata := List (String × JVal)

/-- Association-list lookup used for metadata objects and score maps. -/
def alookup {β : Type} : List (String × β) → String → Option β
  | [], _ => none
  | (k, v) :: rest, key => if k = key then some v else alookup rest key

/-- Modelled from the spec: a `Memory` row (`spec.md` §3 data model).
Timestamps are Unix epoch seconds as `ℚ`. -/
structure Mem : Type where
  id : String
  content : String
  metadata : Option Metadata
  vector : Option (List ℚ)
  created_at : ℚ
  updated_at : ℚ
  last_accessed : Option ℚ
  access_count : ℕ
deriving DecidableEq, Repr

/-- Modelled from the spec: the store state is the bag of rows
(`spec.md` §6: table `memories`); the FTS and vector shadow indices are
derived data and carry no extra state of their own. -/
structure Store : Type where
  rows : List Mem
deriving DecidableEq, Repr

/-- Modelled from the spec: the external ports (`spec.md` §6): the embedder
(`embed(text) -> vector`, `none` when unavailable) and the FTS engine's
ranking (`textRank query content`, `none` when the row does not match;
lower rank is better). -/
structure Ports : Type where
  embed : String → Option (List ℚ)
  textRank : String → String → Option ℚ

/-- Well-formedness of a store: distinct row ids, and no row id is a proper
prefix of another (ids are fixed-width 36-char UUIDs in the source, so a
prefix relation between two ids forces equality). -/
def WF (s : Store) : Prop :=
  (s.rows.map Mem.id).Nodup ∧
    ∀ a ∈ s.rows, ∀ b ∈ s.rows, a.id.data.isPrefixOf b.id.data → a.id = b.id

/-! ## Vector similarity -/

/-- Dot product of two rational vectors. -/
def dot (u v : List ℚ) : ℚ := (List.zipWith (· * ·) u v).sum

/-- Squared Euclidean norm. -/
def norm2 (v : List ℚ) : ℚ := dot v v

/-- The strictly monotone map `x ↦ sign x · x²` used to compare square-root
free surrogates of cosine similarities. -/
def signSq (x : ℚ) : ℚ := if 0 ≤ x then x * x else -(x * x)

/-- Modelled from the spec: exact test `cos(q,v) ≥ t`.  For nonzero vectors,
`dot q v / (‖q‖‖v‖) ≥ t ↔ signSq (dot q v) ≥ signSq t · ‖q‖²‖v‖²`.
Zero-norm vectors have no cosine and never pass (dedup treats them as a miss). -/
def cosSimGe (q v : List ℚ) (t : ℚ) : Prop :=
  norm2 q ≠ 0 ∧ norm2 v ≠ 0 ∧ signSq t * (norm2 q * norm2 v) ≤ signSq (dot q v)

instance (q v : List ℚ) (t : ℚ) : Decidable (cosSimGe q v t) := by
  unfold cosSimGe; infer_instance

/-- Modelled from the spec: square-root free surrogate of `cos(q,v)` for a
fixed query `q`: `sign(dot q v) · (dot q v)² / ‖v‖²`.  For a fixed nonzero
`q` and nonzero candidates `v`, ordering by this value coincides with
ordering by cosine similarity. -/
def simScore (q v : List ℚ) : ℚ :=
  if norm2 v = 0 then 0 else signSq (dot q v) / norm2 v

/-! ## Ordering combinators

All rankings in the engine sort ascending by a key drawn from a linear order
and break remaining ties by id ascending (`spec.md` §4.2.4: "Any ordering that
would otherwise tie must break by `id` ascending"). Descending orders are
obtained by negating the key. -/

variable {α : Type} {K : Type}

/-- Two strings are equal iff their character lists are. -/
theorem string_data_inj {s t : String} (h : s.data = t.data) : s = t := by
  cases s; cases t; exact congrArg String.mk h

/-- Non-strict sort relation: ascending key, then id ascending (ids are
compared through their character lists, which matches the lexicographic
string order). -/
def lexLe [LinearOrder K] (key : α → K) (tag : α → String) (a b : α) : Prop :=
  key a < key b ∨ (key a = key b ∧ (tag a).data ≤ (tag b).data)

/-- Strict ordering: ascending key, ties broken by id strictly ascending. -/
def lexLt [LinearOrder K] (key : α → K) (tag : α → String) (a b : α) : Prop :=
  key a < key b ∨ (key a = key b ∧ (tag a).data < (tag b).data)

instance [LinearOrder K] (key : α → K) (tag : α → String) :
    DecidableRel (lexLe key tag) := by
  unfold lexLe DecidableRel; infer_instance

instance [LinearOrder K] (key : α → K) (tag : α → String) :
    DecidableRel (lexLt key tag) := by
  unfold lexLt DecidableRel; infer_instance

instance [LinearOrder K] (key : α → K) (tag : α → String) :
    IsTotal α (lexLe key tag) := by
  constructor
  intro a b
  unfold lexLe
  rcases lt_trichotomy (key a) (key b) with h | h | h
  · exact Or.inl (Or.inl h)
  · rcases le_total (tag a).data (tag b).data with h2 | h2
    · exact Or.inl (Or.inr ⟨h, h2⟩)
    · exact Or.inr (Or.inr ⟨h.symm, h2⟩)
  · exact Or.inr (Or.inl h)

instance [LinearOrder K] (key : α → K) (tag : α → String) :
    IsTrans α (lexLe key tag) := by
  constructor
  intro a b c hab hbc
  unfold lexLe at *
  rcases hab with h1 | ⟨h1, h1'⟩ <;> rcases hbc with h2 | ⟨h2, h2'⟩
  · exact Or.inl (h1.trans h2)
  · exact Or.inl (h2 ▸ h1)
  · exact Or.inl (h1 ▸ h2)
  · exact Or.inr ⟨h1.trans h2, h1'.trans h2'⟩

theorem lexLt_asymm [LinearOrder K] {key : α → K} {tag : α → String} {a b : α}
    (h : lexLt key tag a b) : ¬ lexLt key tag b a := by
  unfold lexLt at *
  rcases h with h | ⟨h, h'⟩
  · rintro (h2 | ⟨h2, h2'⟩)
    · exact absurd (h.trans h2) (lt_irrefl _)
    · exact absurd h (h2 ▸ lt_irrefl _)
  · rintro (h2 | ⟨h2, h2'⟩)
    · exact absurd h2 (h ▸ lt_irrefl _)
    · exact absurd (h'.trans h2') (lt_irrefl _)

theorem lexLt_total_of_ne [LinearOrder K] {key : α → K} {tag : α → String}
    {a b : α} (h : tag a ≠ tag b) : lexLt key tag a b ∨ lexLt key tag b a := by
  unfold lexLt
  have h' : (tag a).data ≠ (tag b).data := fun hd => h (string_data_inj hd)
  rcases lt_trichotomy (key a) (key b) with hk | hk | hk
  · exact Or.inl (Or.inl hk)
  · rcases lt_or_gt_of_ne h' with ht | ht
    · exact Or.inl (Or.inr ⟨hk, ht⟩)
    · exact Or.inr (Or.inr ⟨hk.symm, ht⟩)
  · exact Or.inr (Or.inl hk)

/-- From a non-strict pairwise sorted list whose tags are distinct,
the strict pairwise ordering follows. -/
theorem pairwise_lexLt_of_pairwise_lexLe [LinearOrder K] {key : α → K}
    {tag : α → String} {l : List α}
    (hs : l.Pairwise (lexLe key tag)) (hn : (l.map tag).Nodup) :
    l.Pairwise (lexLt key tag) := by
  have hn' : l.Pairwise (fun a b => tag a ≠ tag b) :=
    (List.pairwise_map).1 hn
  refine (hs.and hn').imp ?_
  rintro a b ⟨hle, hne⟩
  rcases hle with h | ⟨h, h'⟩
  · exact Or.inl h
  · exact Or.inr ⟨h, lt_of_le_of_ne h' (fun hd => hne (string_data_inj hd))⟩

/-- Sorting by `lexLe` and truncating yields a list that is strictly ordered
whenever the tags are distinct. -/
theorem pairwise_lexLt_take_sort [LinearOrder K] (key : α → K)
    (tag : α → String) (l : List α) (n : ℕ) (hn : (l.map tag).Nodup) :
    ((l.insertionSort (lexLe key tag)).take n).Pairwise (lexLt key tag) := by
  have hperm : List.Perm ((l.insertionSort (lexLe key tag)).map tag) (l.map tag) :=
    (List.perm_insertionSort _ l).map tag
  have hs : (l.insertionSort (lexLe key tag)).Pairwise (lexLe key tag) :=
    List.sorted_insertionSort _ l
  have := pairwise_lexLt_of_pairwise_lexLe hs (hperm.nodup_iff.2 hn)
  exact this.sublist ((l.insertionSort (lexLe key tag)).take_sublist n)

/-! ## Filters and listing -/

/-- `metadata.type` of a row's metadata object (`metadata->>'type'`). -/
def metaType (md : Option Metadata) : Option JVal :=
  md.bind (fun m => alookup m "type")

/-- Modelled from the spec: metadata filter equality (`spec.md` §3 invariant 5):
`{k: v}` matches iff for every `(k,v)` the row's metadata has key `k` with
JSON-equal value `v`. -/
def matchesFilter (filt : Option Metadata) (m : Mem) : Prop :=
  ∀ kv ∈ filt.getD [], alookup (m.metadata.getD []) kv.1 = some kv.2

/-- Modelled from the spec: the `before`/`after` date range applies to
`created_at` (`spec.md` §4.2.1). -/
def inDateRange (before after : Option ℚ) (m : Mem) : Prop :=
  (∀ b ∈ before, m.created_at < b) ∧ (∀ a ∈ after, a < m.created_at)

instance (filt : Option Metadata) (m : Mem) : Decidable (matchesFilter filt m) := by
  unfold matchesFilter; infer_instance

instance (before after : Option ℚ) (m : Mem) : Decidable (inDateRange before after m) := by
  unfold inDateRange; infer_instance

/-- Sort keys of `list` (`spec.md` §4.2.2). -/
inductive SortKey : Type where
  | created | updated | accessed | count
deriving DecidableEq, Repr

/-- Modelled from the spec: the ascending-order key realising each `list`
sort: "All descending. NULLs sort last" — descending is obtained by negating
the value, and a missing `last_accessed` maps to `⊤` so it sorts last. -/
def listKey : SortKey → Mem → WithTop ℚ
  | .created, m => ((-m.created_at : ℚ) : WithTop ℚ)
  | .updated, m => ((-m.updated_at : ℚ) : WithTop ℚ)
  | .accessed, m =>
    match m.last_accessed with
    | some q => ((-q : ℚ) : WithTop ℚ)
    | none => ⊤
  | .count, m => ((-(m.access_count : ℚ) : ℚ) : WithTop ℚ)

/-- The row predicate of `list`: optional `metadata.type` equality plus the
date range on `created_at`. -/
def listPred (type_filter : Option String) (before after : Option ℚ) (m : Mem) : Prop :=
  (∀ t ∈ type_filter, metaType m.metadata = some (.jstr t)) ∧ inDateRange before after m

instance (tf : Option String) (b a : Option ℚ) (m : Mem) : Decidable (listPred tf b a m) := by
  unfold listPred; infer_instance

/-- Modelled from the spec: `list(type_filter?, sort, limit, offset, before?,
after?)` (`spec.md` §4.2.2): filter, sort descending with id-ascending
tie-break, then paginate. -/
def listMems (s : Store) (type_filter : Option String) (sort : SortKey)
    (limit offset : ℕ) (before after : Option ℚ) : List Mem :=
  (((s.rows.filter (fun m => decide (listPred type_filter before after m))).insertionSort
      (lexLe (listKey sort) Mem.id)).drop offset).take limit

/-- `count()`. -/
def count (s : Store) : ℕ := s.rows.length

/-! ## Insert and dedup -/

/-- Insert outcome tag: `action: created | deduplicated`. -/
inductive Action : Type where
  | created | deduplicated
deriving DecidableEq, Repr

/-- Modelled from the spec: the effective vector of a write — the
caller-supplied vector, else the embedder's output unless `no_embed`
(`spec.md` §4.3 step 1, §4.1 `insert`). -/
def effectiveVector (P : Ports) (content : String) (vector : Option (List ℚ))
    (no_embed : Bool) : Option (List ℚ) :=
  match vector with
  | some v => some v
  | none => if no_embed then none else P.embed content

/-- A fresh row as created by `insert`. -/
def mkRow (id content : String) (metadata : Option Metadata)
    (vector : Option (List ℚ)) (now : ℚ) : Mem :=
  { id := id, content := content, metadata := metadata, vector := vector,
    created_at := now, updated_at := now, last_accessed := none, access_count := 0 }

/-- Modelled from the spec: dedup candidates are rows with the same
`metadata.type` and a non-null vector (`spec.md` §4.3 step 2). -/
def dedupCandidates (s : Store) (ty : JVal) : List Mem :=
  s.rows.filter (fun m => m.vector.isSome && decide (metaType m.metadata = some ty))

/-- Modelled from the spec: the candidate row maximizing cosine similarity to
the effective vector (`spec.md` §4.3 step 3); among equally similar rows the
one with the least id (the engine's id-ascending tie-break discipline). -/
def bestCandidate (v : List ℚ) (cands : List Mem) : Option Mem :=
  (cands.insertionSort (lexLe (fun m => -(simScore v (m.vector.getD []))) Mem.id)).head?

/-- Modelled from the spec: `insert` (`spec.md` §4.1, §4.3).  The fresh UUID
is passed in as `newId` (generation is nondeterministic in the source).  On a
dedup hit the existing row's content is rewritten and `updated_at` refreshed;
vector and metadata stay; otherwise a new row is appended.  `InvalidInput`
paths (empty content, dimension mismatch) are outside the modelled claims. -/
def insert (P : Ports) (now : ℚ) (newId : String) (s : Store) (content : String)
    (vector : Option (List ℚ)) (metadata : Option Metadata)
    (dedup_threshold : Option ℚ) (no_embed : Bool) : (String × Action) × Store :=
  let eff := effectiveVector P content vector no_embed
  let fresh : (String × Action) × Store :=
    ((newId, .created), ⟨s.rows ++ [mkRow newId content metadata eff now]⟩)
  match dedup_threshold, eff, metaType metadata with
  | some t, some v, some ty =>
    match bestCandidate v (dedupCandidates s ty) with
    | some b =>
      if cosSimGe v (b.vector.getD []) t then
        ((b.id, .deduplicated),
          ⟨s.rows.map (fun m =>
            if m.id = b.id then { m with content := content, updated_at := now } else m)⟩)
      else fresh
    | none => fresh
  | _, _, _ => fresh

/-- Modelled from the spec: `insert_with_id` (import only; preserves
timestamps, fails if the id exists). -/
def insertWithId (s : Store) (id content : String) (vector : Option (List ℚ))
    (metadata : Option Metadata) (created_at updated_at : ℚ) : Option Store :=
  if id ∈ s.rows.map Mem.id then none
  else some ⟨s.rows ++
    [Mem.mk id content metadata vector created_at updated_at none 0]⟩

/-- Modelled from the spec: `set_access_stats` (import only): restore the
access-tracking fields of a row. -/
def setAccessStats (s : Store) (id : String) (la : Option ℚ) (ac : ℕ) : Store :=
  ⟨s.rows.map (fun m =>
    if m.id = id then { m with last_accessed := la, access_count := ac } else m)⟩

/-! ## Prefix resolution, get, update, delete -/

/-- Engine error kinds (`spec.md` §7 taxonomy; the ones the modelled claims
exercise). -/
inductive MErr : Type where
  | notFound | ambiguous | noEmbedding
deriving DecidableEq, Repr

/-- Rows whose id starts with the given string (the ID resolver's match set,
`spec.md` §4.4). -/
def resolveMatches (s : Store) (p : String) : List Mem :=
  s.rows.filter (fun m => p.data.isPrefixOf m.id.data)

/-- Modelled from the spec: `get_readonly` — resolve a full id or unique
prefix without touching the access tracker; `none` on zero or several
matches (`spec.md` §4.1, §4.4). -/
def getRO (s : Store) (p : String) : Option Mem :=
  match resolveMatches s p with
  | [m] => some m
  | _ => none

/-- Modelled from the spec: `get` — resolve, snapshot the row, then atomically
touch `last_accessed`/`access_count`; the pre-touch snapshot is returned
(`spec.md` §4.5).  Resolution failure returns `none` and leaves the store. -/
def get (now : ℚ) (s : Store) (p : String) : Option Mem × Store :=
  match getRO s p with
  | some m =>
    (some m, ⟨s.rows.map (fun r =>
      if r.id = m.id then
        { r with last_accessed := some now, access_count := r.access_count + 1 }
      else r)⟩)
  | none => (none, s)

/-- Shallow last-writer-wins metadata merge (`{**old, **new}` in Python):
existing keys keep their position but take the new value; keys only in `new`
are appended in order. -/
def mergeMeta (old new : Metadata) : Metadata :=
  old.map (fun kv => (kv.1, (alookup new kv.1).getD kv.2)) ++
    new.filter (fun kv => decide (alookup old kv.1 = none))

/-- The row rewrite performed by `update`. -/
def applyUpdate (now : ℚ) (content : Option String) (vector : Option (List ℚ))
    (metadata : Option Metadata) (merge : Bool) (r : Mem) : Mem :=
  { r with
    content := content.getD r.content,
    vector := (match vector with | some v => some v | none => r.vector),
    metadata := (match metadata with
      | none => r.metadata
      | some md => if merge then some (mergeMeta (r.metadata.getD []) md) else some md),
    updated_at := now }

/-- Modelled from the spec: `update` (`spec.md` §4.1): resolves the prefix
(`NotFound` on zero matches, `Ambiguous` on several), merges or replaces
metadata, refreshes `updated_at`, never touches access counters. -/
def updateOp (now : ℚ) (s : Store) (p : String) (content : Option String)
    (vector : Option (List ℚ)) (metadata : Option Metadata) (merge : Bool) :
    Except MErr Store :=
  match resolveMatches s p with
  | [] => .error .notFound
  | [m] => .ok ⟨s.rows.map (fun r =>
      if r.id = m.id then applyUpdate now content vector metadata merge r else r)⟩
  | _ => .error .ambiguous

/-- Modelled from the spec: `delete` — removes the resolved row (and its
shadow index entries) atomically; prefix resolution as for `update`. -/
def deleteOp (s : Store) (p : String) : Except MErr Store :=
  match resolveMatches s p with
  | [] => .error .notFound
  | [m] => .ok ⟨s.rows.filter (fun r => r.id ≠ m.id)⟩
  | _ => .error .ambiguous

/-- Modelled from the spec: `delete_before(ts)` deletes rows with
`created_at < ts` and returns how many. -/
def deleteBefore (s : Store) (ts : ℚ) : ℕ × Store :=
  (s.rows.countP (fun m => decide (m.created_at < ts)),
    ⟨s.rows.filter (fun m => ¬ decide (m.created_at < ts))⟩)

/-- Modelled from the spec: `delete_by_type(t)` deletes rows whose metadata
type equals `t` and returns how many. -/
def deleteByType (s : Store) (t : String) : ℕ × Store :=
  (s.rows.countP (fun m => decide (metaType m.metadata = some (.jstr t))),
    ⟨s.rows.filter (fun m => ¬ decide (metaType m.metadata = some (.jstr t)))⟩)

/-! ## Vector, text and hybrid search -/

/-- The combined search row filter: metadata filter plus date range. -/
def searchPred (filt : Option Metadata) (before after : Option ℚ) (m : Mem) : Prop :=
  matchesFilter filt m ∧ inDateRange before after m

instance (filt : Option Metadata) (b a : Option ℚ) (m : Mem) :
    Decidable (searchPred filt b a m) := by
  unfold searchPred; infer_instance

/-- Modelled from the spec: vector-only search (`spec.md` §4.2.1): rows that
have a vector and pass the filters, ordered by cosine similarity descending
(id ascending on ties), top `limit`. -/
def vecSearch (s : Store) (q : List ℚ) (filt : Option Metadata)
    (before after : Option ℚ) (limit : ℕ) : List Mem :=
  ((s.rows.filter (fun m =>
      m.vector.isSome && decide (searchPred filt before after m))).insertionSort
    (lexLe (fun m => -(simScore q (m.vector.getD []))) Mem.id)).take limit

/-- The FTS rank of a row for a query, as an ascending sort key
(non-matching rows map to `⊤`, but they are filtered out beforehand). -/
def textKey (P : Ports) (q : String) (m : Mem) : WithTop ℚ :=
  match P.textRank q m.content with
  | some r => (r : WithTop ℚ)
  | none => ⊤

/-- Modelled from the spec: text-only search (`spec.md` §4.2.1): rows matched
by the FTS engine that pass the filters, ordered by FTS rank ascending
(lower is better; id ascending on ties), top `limit`. -/
def textSearch (P : Ports) (s : Store) (q : String) (filt : Option Metadata)
    (before after : Option ℚ) (limit : ℕ) : List Mem :=
  ((s.rows.filter (fun m =>
      (P.textRank q m.content).isSome && decide (searchPred filt before after m))).insertionSort
    (lexLe (textKey P q) Mem.id)).take limit

/-- Modelled from the spec: empty-query search: most recent by `created_at`
descending, filtered, limited. -/
def recencySearch (s : Store) (filt : Option Metadata)
    (before after : Option ℚ) (limit : ℕ) : List Mem :=
  ((s.rows.filter (fun m => decide (searchPred filt before after m))).insertionSort
    (lexLe (fun m => -m.created_at) Mem.id)).take limit

/-- RRF: add one contribution to a score map, keeping the map keyed by id
(new ids are appended). -/
def bump : List (String × ℚ) → String → ℚ → List (String × ℚ)
  | [], x, c => [(x, c)]
  | (k, v) :: rest, x, c =>
    if k = x then (k, v + c) :: rest else (k, v) :: bump rest x c

/-- RRF: fold a ranked id list into the score map, contributing `1/(60 + r)`
for the entry at 1-based rank `r` (`k_rrf = 60`). -/
def addContribs (acc : List (String × ℚ)) (r : ℕ) : List String → List (String × ℚ)
  | [] => acc
  | x :: xs => addContribs (bump acc x (1 / (60 + (r : ℚ)))) (r + 1) xs

/-- Modelled from the spec: the RRF score map of two ranked id lists
(`spec.md` §4.2.1 hybrid steps 3–4), built by accumulation as an engine
implementation would. -/
def rrfScores (vecIds textIds : List String) : List (String × ℚ) :=
  addContribs (addContribs [] 1 vecIds) 1 textIds

/-- Keep the first occurrence of each element. -/
def dedupFirstAux {β : Type} [DecidableEq β] (key : β → String) :
    List String → List β → List β
  | _, [] => []
  | seen, x :: xs =>
    if key x ∈ seen then dedupFirstAux key seen xs
    else x :: dedupFirstAux key (key x :: seen) xs

/-- The fused score recorded for a candidate id. -/
def fusedScore (scores : List (String × ℚ)) (x : String) : ℚ :=
  (alookup scores x).getD 0

/-- 1-based rank of an id in a ranked list (`⊤` when absent, so that absent
ranks sort last in the ascending tie-break). -/
def rankIn (ids : List String) (x : String) : WithTop ℕ :=
  match ids.findIdx? (· = x) with
  | some i => ((i + 1 : ℕ) : WithTop ℕ)
  | none => ⊤

/-- The hybrid ordering key: fused score descending, then vector rank
ascending, then text rank ascending (id ascending is appended by `lexLe`). -/
def hybridKey (scores : List (String × ℚ)) (vecIds textIds : List String)
    (x : String) : ℚ ×ₗ (WithTop ℕ ×ₗ WithTop ℕ) :=
  toLex (-(fusedScore scores x), toLex (rankIn vecIds x, rankIn textIds x))

/-- Modelled from the spec: K = max(limit × 4, 50). -/
def hybridK (limit : ℕ) : ℕ := max (limit * 4) 50

/-- The vector-search top-K feeding hybrid fusion. -/
def vecTopK (s : Store) (q : List ℚ) (filt : Option Metadata)
    (before after : Option ℚ) (limit : ℕ) : List Mem :=
  vecSearch s q filt before after (hybridK limit)

/-- The text-search top-K feeding hybrid fusion. -/
def textTopK (P : Ports) (s : Store) (txt : String) (filt : Option Metadata)
    (before after : Option ℚ) (limit : ℕ) : List Mem :=
  textSearch P s txt filt before after (hybridK limit)

/-- Modelled from the spec: hybrid search (`spec.md` §4.2.1): run the two
filtered top-K searches, fuse by RRF, order by (fused sum desc, vector-rank
asc, text-rank asc, id asc), return the top `limit` rows. -/
def hybridSearch (P : Ports) (s : Store) (q : List ℚ) (txt : String)
    (filt : Option Metadata) (before after : Option ℚ) (limit : ℕ) : List Mem :=
  let vecTop := vecTopK s q filt before after limit
  let textTop := textTopK P s txt filt before after limit
  let vIds := vecTop.map Mem.id
  let tIds := textTop.map Mem.id
  let scores := rrfScores vIds tIds
  let cands := dedupFirstAux Mem.id [] (vecTop ++ textTop)
  ((cands.insertionSort (lexLe (fun m => hybridKey scores vIds tIds m.id) Mem.id)).take
    limit)

/-- The hybrid results as `(id, score)` pairs: `score = fused sum`. -/
def hybridResults (P : Ports) (s : Store) (q : List ℚ) (txt : String)
    (filt : Option Metadata) (before after : Option ℚ) (limit : ℕ) :
    List (String × ℚ) :=
  let vIds := (vecTopK s q filt before after limit).map Mem.id
  let tIds := (textTopK P s txt filt before after limit).map Mem.id
  (hybridSearch P s q txt filt before after limit).map
    (fun m => (m.id, fusedScore (rrfScores vIds tIds) m.id))

/-- Modelled from the spec: `related(id, limit)` (`spec.md` §4.2.3): resolve,
fail with `NoEmbedding` when the source row lacks a vector, else vector-only
search with the source excluded. -/
def relatedOp (s : Store) (p : String) (limit : ℕ) : Except MErr (List Mem) :=
  match resolveMatches s p with
  | [] => .error .notFound
  | [m] =>
    match m.vector with
    | none => .error .noEmbedding
    | some v =>
      .ok (((s.rows.filter (fun r => r.vector.isSome && r.id ≠ m.id)).insertionSort
        (lexLe (fun r => -(simScore v (r.vector.getD []))) Mem.id)).take limit)
  | _ => .error .ambiguous

/-- Modelled from the spec: the `search` mode dispatcher (`spec.md` §4.2.1).
`text_only` forces pure FTS; a text query without a supplied vector is
auto-vectorized when the embedder is available, yielding hybrid; with both a
vector and text present the search is hybrid; otherwise the pure mode of
whatever is present runs (recency listing when nothing is). -/
def searchMems (P : Ports) (s : Store) (vector : Option (List ℚ))
    (text : Option String) (filt : Option Metadata) (limit : ℕ)
    (text_only : Bool) (before after : Option ℚ) : List Mem :=
  if text_only then
    match text, vector with
    | some q, _ => textSearch P s q filt before after limit
    | none, some v => vecSearch s v filt before after limit
    | none, none => recencySearch s filt before after limit
  else
    match vector, text with
    | some v, some q => hybridSearch P s v q filt before after limit
    | some v, none => vecSearch s v filt before after limit
    | none, some q =>
      match P.embed q with
      | some v => hybridSearch P s v q filt before after limit
      | none => textSearch P s q filt before after limit
    | none, none => recencySearch s filt before after limit

/-- The strict ordering that `searchMems` establishes on its output in each
mode: the mode's sort key, with remaining ties broken by id strictly
ascending. -/
def searchStrictLt (P : Ports) (s : Store) (vector : Option (List ℚ))
    (text : Option String) (filt : Option Metadata) (limit : ℕ)
    (text_only : Bool) (before after : Option ℚ) : Mem → Mem → Prop :=
  if text_only then
    match text, vector with
    | some q, _ => lexLt (textKey P q) Mem.id
    | none, some v => lexLt (fun m => -(simScore v (m.vector.getD []))) Mem.id
    | none, none => lexLt (fun m => -m.created_at) Mem.id
  else
    match vector, text with
    | some v, some q =>
      let vIds := (vecTopK s v filt before after limit).map Mem.id
      let tIds := (textTopK P s q filt before after limit).map Mem.id
      lexLt (fun m => hybridKey (rrfScores vIds tIds) vIds tIds m.id) Mem.id
    | some v, none => lexLt (fun m => -(simScore v (m.vector.getD []))) Mem.id
    | none, some q =>
      match P.embed q with
      | some v =>
        let vIds := (vecTopK s v filt before after limit).map Mem.id
        let tIds := (textTopK P s q filt before after limit).map Mem.id
        lexLt (fun m => hybridKey (rrfScores vIds tIds) vIds tIds m.id) Mem.id
      | none => lexLt (textKey P q) Mem.id
    | none, none => lexLt (fun m => -m.created_at) Mem.id

/-- The RRF contribution of a ranked id list to a candidate, as the claim
words it: `1/(60 + r)` at 1-based rank `r`, `0` when absent. -/
def contrib (ids : List String) (x : String) : ℚ :=
  match ids.findIdx? (· = x) with
  | some i => 1 / (60 + ((i + 1 : ℕ) : ℚ))
  | none => 0

/-- Reciprocal-rank fusion as the specification words it (for comparison with
the accumulating implementation): every id present in either list is a
candidate; its score is the sum of the two rank contributions; candidates are
ordered by score descending, vector-rank ascending, text-rank ascending, id
ascending; the top `limit` are returned with their fused sums. -/
def rrfFusionSpec (vecIds textIds : List String) (limit : ℕ) : List (String × ℚ) :=
  let score := fun x => contrib vecIds x + contrib textIds x
  let key := fun x => toLex (-(score x), toLex (rankIn vecIds x, rankIn textIds x))
  let cands := dedupFirstAux (fun x : String => x) [] (vecIds ++ textIds)
  ((cands.insertionSort (lexLe key (fun x => x))).map (fun x => (x, score x))).take limit

/-! ## CLI layer

Translated from `src/memori-python/python/memori_cli/__init__.py`. -/

/-- The error kinds the CLI emits through `_err` (the `error_type` strings of
every `_err` call site in the source). -/
inductive ErrKind : Type where
  | invalid_json | invalid_date | missing_argument | invalid_format
  | not_found | no_embedding | ambiguousPrefix
deriving DecidableEq, Repr

/-- A CLI error as surfaced to the host: the kind and the process exit code
passed to `_err`. -/
structure CliErr : Type where
  kind : ErrKind
  code : ℕ
deriving DecidableEq, Repr

/-- The `error` string `_err` prints for each kind. -/
def kindStr : ErrKind → String
  | .invalid_json => "invalid_json"
  | .invalid_date => "invalid_date"
  | .missing_argument => "missing_argument"
  | .invalid_format => "invalid_format"
  | .not_found => "not_found"
  | .no_embedding => "no_embedding"
  | .ambiguousPrefix => "ambiguous_prefix"

/-- The JSON object `_err` writes to stderr under `--json`:
`{"error": ..., "message": ...}` plus `"id"` when an input id is involved
(source lines 55–64). -/
def errObj (kind : ErrKind) (message : String) (inputId : Option String) :
    List (String × JVal) :=
  [("error", .jstr (kindStr kind)), ("message", .jstr message)] ++
    (match inputId with
     | some i => [("id", .jstr i)]
     | none => [])

/-- The input-error kinds: invalid JSON, invalid date, missing required
arguments, bad tag format. -/
def isInputError : ErrKind → Bool
  | .invalid_json | .invalid_date | .missing_argument | .invalid_format => true
  | _ => false

/-- The exit code each `_err` call site in the source passes for its kind:
`exit_code=2` at every input-error site, `exit_code=1` at every
not-found/runtime site. -/
def exitCodeOf : ErrKind → ℕ
  | .invalid_json => 2
  | .invalid_date => 2
  | .missing_argument => 2
  | .invalid_format => 2
  | .not_found => 1
  | .no_embedding => 1
  | .ambiguousPrefix => 1

/-- The process exit code of a CLI invocation: the error's code, or 0 on
success. -/
def exitCode {β : Type} : Except CliErr β → ℕ
  | .ok _ => 0
  | .error e => e.code

/-- A `--meta`/`--vector`/`--filter` style JSON flag: absent, present but
malformed, or present with its parsed value (the JSON grammar itself is
Python's `json` module, external to the repository). -/
inductive JsonArg (β : Type) : Type where
  | absent : JsonArg β
  | malformed : JsonArg β
  | given : β → JsonArg β

/-- `_parse_json` lifted over an optional flag: malformed input is the
`invalid_json` error with exit code 2 (source lines 67–72). -/
def parseJsonArg {β : Type} : JsonArg β → Except CliErr (Option β)
  | .absent => .ok none
  | .malformed => .error ⟨.invalid_json, 2⟩
  | .given v => .ok (some v)

/-! ### Tag value coercion (`_parse_tag_value`, source lines 230–244)

Python's `int()` and `float()` builtins are modelled for the standard decimal
grammars: optional surrounding whitespace and sign; `int()` additionally
allows single underscores between digits; `float()` allows `digits[.digits]`
or `.digits` with an optional decimal exponent.  (`inf`/`nan` literals and
underscores in floats are outside the modelled claims.) -/

/-- Decimal digit value of a character, if any. -/
def digitVal (c : Char) : Option ℕ :=
  if c.isDigit then some (c.toNat - 48) else none

/-- Strip leading and trailing whitespace, as Python's numeric constructors
do. -/
def stripWs (l : List Char) : List Char :=
  ((l.dropWhile Char.isWhitespace).reverse.dropWhile Char.isWhitespace).reverse

/-- Digits with optional single underscores between digits, accumulating the
value (the tail of Python's integer literal grammar). -/
def digitsUnder (acc : ℕ) : List Char → Option ℕ
  | [] => some acc
  | '_' :: c :: rest =>
    match digitVal c with
    | some d => digitsUnder (acc * 10 + d) rest
    | none => none
  | ['_'] => none
  | c :: rest =>
    match digitVal c with
    | some d => digitsUnder (acc * 10 + d) rest
    | none => none

/-- A nonempty digit group with underscores permitted between digits. -/
def parseDigitsUnder : List Char → Option ℕ
  | c :: rest =>
    match digitVal c with
    | some d => digitsUnder d rest
    | none => none
  | [] => none

/-- Optional sign; returns the sign as `ℤ` and the rest. -/
def parseSign : List Char → ℤ × List Char
  | '+' :: rest => (1, rest)
  | '-' :: rest => (-1, rest)
  | l => (1, l)

/-- Python's `int(str)` for decimal strings. -/
def pyInt (s : String) : Option ℤ :=
  let (sign, body) := parseSign (stripWs s.data)
  (parseDigitsUnder body).map (fun n => sign * (n : ℤ))

/-- Greedily take a digit group, returning its value, digit count and rest. -/
def takeDigits (acc : ℕ) (cnt : ℕ) : List Char → ℕ × ℕ × List Char
  | [] => (acc, cnt, [])
  | c :: rest =>
    match digitVal c with
    | some d => takeDigits (acc * 10 + d) (cnt + 1) rest
    | none => (acc, cnt, c :: rest)

/-- The optional exponent suffix of a float literal; carries the signed
mantissa digits and the count of fractional digits. -/
def pyFloatExpParts (m : ℤ) (k : ℕ) : List Char → Option (ℤ × ℕ × ℤ)
  | [] => some (m, k, 0)
  | 'e' :: r | 'E' :: r =>
    let (es, r2) := parseSign r
    let (ev, ec, r3) := takeDigits 0 0 r2
    if ec = 0 ∨ r3 ≠ [] then none
    else some (m, k, es * (ev : ℤ))
  | _ => none

/-- The integer decomposition of a float literal: signed mantissa digits `m`,
fractional digit count `k` and exponent `e`, denoting `m / 10^k · 10^e`. -/
def pyFloatParts (s : String) : Option (ℤ × ℕ × ℤ) :=
  let (sign, body) := parseSign (stripWs s.data)
  let (ip, ic, restA) := takeDigits 0 0 body
  match restA with
  | '.' :: r =>
    let (fp, fc, restB) := takeDigits 0 0 r
    if ic + fc = 0 then none
    else pyFloatExpParts (sign * ((ip * 10 ^ fc + fp : ℕ) : ℤ)) fc restB
  | _ =>
    if ic = 0 then none
    else pyFloatExpParts (sign * (ip : ℤ)) 0 restA

/-- Python's `float(str)` for finite decimal literals, as an exact rational. -/
def pyFloat (s : String) : Option ℚ :=
  (pyFloatParts s).map (fun p => (p.1 : ℚ) / (10 : ℚ) ^ p.2.1 * (10 : ℚ) ^ p.2.2)

/-- Python's `str.lower()` restricted to ASCII case folding, as the list of
lowered code points (enough to decide equality against the lowercase literals
`"true"`/`"false"`). -/
def pyLower (s : String) : List ℕ :=
  s.data.map (fun c => if 65 ≤ c.toNat ∧ c.toNat ≤ 90 then c.toNat + 32 else c.toNat)

/-- `_parse_tag_value` (source lines 230–244): `"true"`/`"false"` ignoring
case become booleans, else `int()` is tried, then `float()`, else the string
stays. -/
def parseTagValue (v : String) : JVal :=
  if pyLower v = pyLower "true" then .jbool true
  else if pyLower v = pyLower "false" then .jbool false
  else
    match pyInt v with
    | some n => .jint n
    | none =>
      match pyFloat v with
      | some q => .jnum q
      | none => .jstr v

/-- `pair.split("=", 1)`: split at the first `'='` only; `none` when there is
no `'='`. -/
def splitFirstEq : List Char → Option (List Char × List Char)
  | [] => none
  | c :: rest =>
    if c = '=' then some ([], rest)
    else (splitFirstEq rest).map (fun p => (c :: p.1, p.2))

/-- The tag-pair parsing loop of `cmd_tag` (source lines 251–257): the first
pair without `'='` aborts with `invalid_format` and exit code 2; otherwise
each value is coerced by `_parse_tag_value`. -/
def parsePairs : List String → Except CliErr Metadata
  | [] => .ok []
  | pair :: rest =>
    match splitFirstEq pair.data with
    | none => .error ⟨.invalid_format, 2⟩
    | some (k, v) =>
      (parsePairs rest).map
        (fun tags => (String.mk k, parseTagValue (String.mk v)) :: tags)

/-! ### Date parsing (`_parse_date_arg`, source lines 87–96)

Python's `datetime.fromisoformat` is modelled for the grammar
`YYYY-MM-DD[{T,space}HH:MM[:SS[.ffffff]]][±HH:MM]` with calendar
validation; `datetime.timestamp()` uses the attached offset for aware
datetimes and the host's local offset for naive ones.  The source replaces a
missing `tzinfo` with UTC before calling `timestamp()`. -/

/-- A parsed ISO datetime: calendar fields, fractional seconds, and the
optional UTC offset in seconds. -/
structure PyDateTime : Type where
  year : ℕ
  month : ℕ
  day : ℕ
  hour : ℕ
  minute : ℕ
  second : ℕ
  frac : ℚ
  tz : Option ℤ
deriving DecidableEq, Repr

/-- Leap year rule of the proleptic Gregorian calendar. -/
def isLeap (y : ℕ) : Bool :=
  (y % 4 = 0 && y % 100 ≠ 0) || y % 400 = 0

/-- Days in a month. -/
def daysInMonth (y m : ℕ) : ℕ :=
  if m = 2 then (if isLeap y then 29 else 28)
  else if m = 4 ∨ m = 6 ∨ m = 9 ∨ m = 11 then 30
  else 31

/-- Days since 1970-01-01 of a civil date (Howard Hinnant's `days_from_civil`
algorithm, transcribed with C-style truncated integer division, which Lean's
`Int` division matches). -/
def daysFromCivil (y m d : ℕ) : ℤ :=
  let y' : ℤ := (y : ℤ) - (if m ≤ 2 then 1 else 0)
  let era : ℤ := (if 0 ≤ y' then y' else y' - 399) / 400
  let yoe : ℤ := y' - era * 400
  let mp : ℤ := ((m : ℤ) + 9) % 12
  let doy : ℤ := (153 * mp + 2) / 5 + (d : ℤ) - 1
  let doe : ℤ := yoe * 365 + yoe / 4 - yoe / 100 + doy
  era * 146097 + doe - 719468

/-- Expect one literal character. -/
def expectChar (c : Char) : List Char → Option (List Char)
  | x :: rest => if x = c then some rest else none
  | [] => none

/-- Exactly `n` digits, as a number. -/
def parseNd (acc : ℕ) : ℕ → List Char → Option (ℕ × List Char)
  | 0, l => some (acc, l)
  | n + 1, c :: rest =>
    match digitVal c with
    | some d => parseNd (acc * 10 + d) n rest
    | none => none
  | _ + 1, [] => none

/-- The optional `±HH:MM` offset suffix; `none` input chars mean no offset. -/
def parseTzSuffix : List Char → Option (Option ℤ)
  | [] => some none
  | c :: rest =>
    if c = '+' ∨ c = '-' then
      match parseNd 0 2 rest with
      | some (oh, r1) =>
        match expectChar ':' r1 with
        | some r2 =>
          match parseNd 0 2 r2 with
          | some (om, []) =>
            if oh ≤ 23 ∧ om ≤ 59 then
              some (some ((if c = '-' then -1 else 1) * ((oh : ℤ) * 3600 + (om : ℤ) * 60)))
            else none
          | _ => none
        | none => none
      | none => none
    else none

/-- The optional `:SS[.ffffff]` suffix, then the offset. -/
def parseSecFrac : List Char → Option ((ℕ × ℚ) × Option ℤ)
  | [] => some ((0, 0), none)
  | c :: rest =>
    if c = ':' then
      match parseNd 0 2 rest with
      | some (ss, r1) =>
        if ss ≤ 59 then
          match r1 with
          | '.' :: r2 =>
            let (fv, fc, r3) := takeDigits 0 0 r2
            if 1 ≤ fc ∧ fc ≤ 6 then
              (parseTzSuffix r3).map (fun tz => ((ss, (fv : ℚ) / ((10 : ℚ) ^ fc)), tz))
            else none
          | r2 => (parseTzSuffix r2).map (fun tz => ((ss, 0), tz))
        else none
      | none => none
    else (parseTzSuffix (c :: rest)).map (fun tz => ((0, 0), tz))

/-- `datetime.fromisoformat` for the modelled grammar. -/
def fromIso (s : String) : Option PyDateTime :=
  match parseNd 0 4 s.data with
  | some (y, r1) =>
    match expectChar '-' r1 with
    | some r2 =>
      match parseNd 0 2 r2 with
      | some (mo, r3) =>
        match expectChar '-' r3 with
        | some r4 =>
          match parseNd 0 2 r4 with
          | some (d, r5) =>
            if 1 ≤ mo ∧ mo ≤ 12 ∧ 1 ≤ d ∧ d ≤ daysInMonth y mo then
              match r5 with
              | [] => some ⟨y, mo, d, 0, 0, 0, 0, none⟩
              | sep :: r6 =>
                if sep = 'T' ∨ sep = ' ' then
                  match parseNd 0 2 r6 with
                  | some (hh, r7) =>
                    match expectChar ':' r7 with
                    | some r8 =>
                      match parseNd 0 2 r8 with
                      | some (mi, r9) =>
                        if hh ≤ 23 ∧ mi ≤ 59 then
                          match parseSecFrac r9 with
                          | some ((ss, fr), tz) => some ⟨y, mo, d, hh, mi, ss, fr, tz⟩
                          | none => none
                        else none
                      | none => none
                    | none => none
                  | none => none
                else none
            else none
          | none => none
        | none => none
      | none => none
    | none => none
  | none => none

/-- `datetime.timestamp()`: seconds since the epoch, computed with the
datetime's own offset when aware, and with the host's local offset when
naive. -/
def pyTimestamp (dt : PyDateTime) (hostOffset : ℤ) : ℚ :=
  ((daysFromCivil dt.year dt.month dt.day * 86400 +
      (dt.hour : ℤ) * 3600 + (dt.minute : ℤ) * 60 + (dt.second : ℤ) -
      (dt.tz.getD hostOffset) : ℤ) : ℚ) + dt.frac

/-- `_parse_date_arg` (source lines 87–96): parse ISO, replace a missing
`tzinfo` with UTC, convert to a Unix timestamp; a parse failure is
`invalid_date` with exit code 2. -/
def parseDateArg (hostOffset : ℤ) (s : String) : Except CliErr ℚ :=
  match fromIso s with
  | none => .error ⟨.invalid_date, 2⟩
  | some dt => .ok (pyTimestamp { dt with tz := some (dt.tz.getD 0) } hostOffset)

/-- `_parse_date_arg` lifted over an optional flag (absent dates stay
absent). -/
def parseDateOpt (hostOffset : ℤ) : Option String → Except CliErr (Option ℚ)
  | some b => (parseDateArg hostOffset b).map some
  | none => .ok none

/-! ### CLI commands -/

/-- `DEFAULT_DEDUP_THRESHOLD` (source line 38) and the `--dedup-threshold`
argparse default (source line 1015). -/
def DEFAULT_DEDUP_THRESHOLD : ℚ := 92 / 100

/-- The dedup threshold `cmd_store` passes to `insert` (source lines
123–126): `None` under `--no-dedup`, else the `--dedup-threshold` value,
which defaults to `DEFAULT_DEDUP_THRESHOLD` when the host does not specify
one. -/
def cmdStoreThreshold (no_dedup : Bool) (thr : ℚ) : Option ℚ :=
  if no_dedup then none else some thr

/-- `cmd_store` (source lines 117–145): parse `--meta` and `--vector`,
compute the dedup threshold, insert.  Returns `(id, action)` and the new
store. -/
def cmdStore (P : Ports) (now : ℚ) (newId : String) (s : Store)
    (content : String) (metaArg : JsonArg Metadata) (vecArg : JsonArg (List ℚ))
    (no_embed no_dedup : Bool) (thr : ℚ) :
    Except CliErr ((String × Action) × Store) :=
  match parseJsonArg metaArg with
  | .error e => .error e
  | .ok meta =>
    match parseJsonArg vecArg with
    | .error e => .error e
    | .ok vector =>
      .ok (insert P now newId s content vector meta (cmdStoreThreshold no_dedup thr) no_embed)

/-- `cmd_get` (source lines 191–200): `get` and print, else `not_found` with
exit code 1. -/
def cmdGet (now : ℚ) (s : Store) (idArg : String) : Except CliErr (Mem × Store) :=
  match get now s idArg with
  | (some m, s') => .ok (m, s')
  | (none, _) => .error ⟨.not_found, 1⟩

/-- `cmd_update` (source lines 203–227): at least one of `--content`,
`--meta`, `--vector` is required (else `missing_argument`, exit 2); malformed
JSON flags are `invalid_json` (exit 2); any engine `RuntimeError` from
`update` is surfaced as `not_found` with exit code 1. -/
def cmdUpdate (now : ℚ) (s : Store) (idArg : String) (content : Option String)
    (metaArg : JsonArg Metadata) (vecArg : JsonArg (List ℚ)) (replace : Bool) :
    Except CliErr Store :=
  match parseJsonArg metaArg with
  | .error e => .error e
  | .ok meta =>
    match parseJsonArg vecArg with
    | .error e => .error e
    | .ok vector =>
      if content = none ∧ meta = none ∧ vector = none then
        .error ⟨.missing_argument, 2⟩
      else
        match updateOp now s idArg content vector meta (! replace) with
        | .ok s' => .ok s'
        | .error _ => .error ⟨.not_found, 1⟩

/-- `cmd_tag` (source lines 247–275): parse `key=value` pairs with coercion
(first bad pair: `invalid_format`, exit 2), then merge into metadata; any
engine `RuntimeError` is surfaced as `not_found` with exit code 1. -/
def cmdTag (now : ℚ) (s : Store) (idArg : String) (pairs : List String) :
    Except CliErr Store :=
  match parsePairs pairs with
  | .error e => .error e
  | .ok tags =>
    match updateOp now s idArg none none (some tags) true with
    | .ok s' => .ok s'
    | .error _ => .error ⟨.not_found, 1⟩

/-- `cmd_delete` (source lines 651–662): `delete`, surfacing any engine
error as `not_found` with exit code 1. -/
def cmdDelete (s : Store) (idArg : String) : Except CliErr Store :=
  match deleteOp s idArg with
  | .ok s' => .ok s'
  | .error _ => .error ⟨.not_found, 1⟩

/-- `cmd_related` (source lines 607–623): `related`, mapping the engine error
by its message: "no embedding" → `no_embedding`, "ambiguous" →
`ambiguous_prefix`, otherwise `not_found`; all with exit code 1. -/
def cmdRelated (s : Store) (idArg : String) (limit : ℕ) :
    Except CliErr (List Mem) :=
  match relatedOp s idArg limit with
  | .ok res => .ok res
  | .error .noEmbedding => .error ⟨.no_embedding, 1⟩
  | .error .ambiguous => .error ⟨.ambiguousPrefix, 1⟩
  | .error .notFound => .error ⟨.not_found, 1⟩

/-- `cmd_search` (source lines 148–162): parse `--vector` and `--filter`
JSON flags, parse `--before`/`--after` dates, run the search. -/
def cmdSearch (P : Ports) (hostOffset : ℤ) (s : Store)
    (text : Option String) (vecArg : JsonArg (List ℚ))
    (filtArg : JsonArg Metadata) (limit : ℕ) (text_only : Bool)
    (beforeArg afterArg : Option String) : Except CliErr (List Mem) :=
  match parseJsonArg vecArg with
  | .error e => .error e
  | .ok vector =>
    match parseJsonArg filtArg with
    | .error e => .error e
    | .ok filt =>
      match parseDateOpt hostOffset beforeArg with
      | .error e => .error e
      | .ok before =>
        match parseDateOpt hostOffset afterArg with
        | .error e => .error e
        | .ok after => .ok (searchMems P s vector text filt limit text_only before after)

/-- The listing `cmd_purge` uses both for the dry-run preview and for the
combined-criteria delete: `list(type_filter, sort="created",
limit=1_000_000, before=...)` (source lines 558 and 581–586). -/
def purgeList (s : Store) (ty : Option String) (before : Option ℚ) : List Mem :=
  listMems s ty .created 1000000 0 before none

/-- `cmd_purge` without `--confirm` (source lines 546–553, 579–598): at least
one of `--before`/`--type` is required (`missing_argument`, exit 2), dates
parse through `_parse_date_arg`; the result is the preview count. -/
def cmdPurgePreview (hostOffset : ℤ) (s : Store) (beforeArg : Option String)
    (ty : Option String) : Except CliErr ℕ :=
  if beforeArg = none ∧ ty = none then
    .error ⟨.missing_argument, 2⟩
  else
    match parseDateOpt hostOffset beforeArg with
    | .error e => .error e
    | .ok before => .ok (purgeList s ty before).length

/-- The per-row delete loop of the combined-criteria confirm path
(source lines 558–561): `for mem in to_delete: db.delete(mem["id"])`;
an engine error would propagate out of the CLI. -/
def deleteEach (s : Store) : List Mem → Except MErr Store
  | [] => .ok s
  | m :: rest =>
    match deleteOp s m.id with
    | .ok s' => deleteEach s' rest
    | .error e => .error e

/-- `cmd_purge --confirm` (source lines 555–578): with both criteria, list
with the same predicate as the preview and delete per row, reporting
`len(to_delete)`; with only `--before`, `delete_before`; with only `--type`,
`delete_by_type`.  Returns the reported count and the final store. -/
def cmdPurgeConfirm (hostOffset : ℤ) (s : Store) (beforeArg : Option String)
    (ty : Option String) : Except CliErr (ℕ × Store) :=
  if beforeArg = none ∧ ty = none then
    .error ⟨.missing_argument, 2⟩
  else
    match parseDateOpt hostOffset beforeArg with
    | .error e => .error e
    | .ok before =>
      match before, ty with
      | some b, some t =>
        match deleteEach s (purgeList s (some t) (some b)) with
        | .ok s' => .ok ((purgeList s (some t) (some b)).length, s')
        | .error _ => .error ⟨.not_found, 1⟩
      | some b, none => .ok (deleteBefore s b)
      | none, some t => .ok (deleteByType s t)
      | none, none => .ok (0, s)

/-! ### Export / import (source lines 472–543) -/

/-- One JSONL record of the export wire format. -/
structure ExportEntry : Type where
  id : String
  content : String
  metadata : Option Metadata
  created_at : ℚ
  updated_at : ℚ
  last_accessed : Option ℚ
  access_count : ℕ
  vector : Option (List ℚ)
deriving DecidableEq, Repr

/-- The record `cmd_export` writes for a row: `vector` is `None` unless
`--include-vectors`. -/
def toEntry (include_vectors : Bool) (m : Mem) : ExportEntry :=
  ⟨m.id, m.content, m.metadata, m.created_at, m.updated_at, m.last_accessed,
    m.access_count, if include_vectors then m.vector else none⟩

/-- The batched pagination loop of `cmd_export` (source lines 475–496):
fetch `list(sort="created", limit=100, offset)` until a short or empty batch.
`fuel` bounds the number of iterations (the source loop terminates because
offsets grow). -/
def exportLoop (s : Store) (include_vectors : Bool) (offset : ℕ) :
    ℕ → List ExportEntry
  | 0 => []
  | fuel + 1 =>
    let batch := listMems s none .created 100 offset none none
    if batch.isEmpty then []
    else
      batch.map (toEntry include_vectors) ++
        (if batch.length < 100 then []
         else exportLoop s include_vectors (offset + batch.length) fuel)

/-- `cmd_export` (default flags): batches of 100 from offset 0. -/
def cmdExport (s : Store) (include_vectors : Bool) : List ExportEntry :=
  exportLoop s include_vectors 0 (s.rows.length + 1)

/-- One import iteration without `--new-ids` (source lines 509–534):
`insert_with_id` preserving id and timestamps, then `set_access_stats` when
the record carries access history; a failed record counts as an error and the
loop continues. -/
def importEntry (s : Store) (e : ExportEntry) : Option Store :=
  match insertWithId s e.id e.content e.vector e.metadata e.created_at e.updated_at with
  | none => none
  | some s' =>
    if e.last_accessed ≠ none ∨ 0 < e.access_count then
      some (setAccessStats s' e.id e.last_accessed e.access_count)
    else some s'

/-- `cmd_import` without `--new-ids`: fold the records, counting
`(imported, errors)`. -/
def cmdImport (s : Store) : List ExportEntry → Store × (ℕ × ℕ)
  | [] => (s, (0, 0))
  | e :: rest =>
    match importEntry s e with
    | some s' =>
      let (sf, (imp, err)) := cmdImport s' rest
      (sf, (imp + 1, err))
    | none =>
      let (sf, (imp, err)) := cmdImport s rest
      (sf, (imp, err + 1))

/-! ## Theorems -/

theorem splitFirstEq_append {k : List Char} (v : List Char) (hk : '=' ∉ k) :
    splitFirstEq (k ++ '=' :: v) = some (k, v) := by
  induction k with
  | nil => simp [splitFirstEq]
  | cons c rest ih =>
    have hc : ¬ (c = '=') := fun h => hk (h ▸ List.mem_cons_self c rest)
    simp [splitFirstEq, hc, ih (fun h => hk (List.mem_cons_of_mem c h))]

theorem splitFirstEq_none {l : List Char} (h : '=' ∉ l) :
    splitFirstEq l = none := by
  induction l with
  | nil => rfl
  | cons c rest ih =>
    have hc : ¬ (c = '=') := fun hcc => h (hcc ▸ List.mem_cons_self c rest)
    simp [splitFirstEq, hc, ih (fun hm => h (List.mem_cons_of_mem c hm))]

theorem parsePairs_error {pairs : List String}
    (h : ∃ p ∈ pairs, splitFirstEq p.data = none) :
    parsePairs pairs = .error ⟨.invalid_format, 2⟩ := by
  induction pairs with
  | nil => simp at h
  | cons p rest ih =>
    rcases h with ⟨q, hq, hqn⟩
    rcases List.mem_cons.1 hq with rfl | hq'
    · simp [parsePairs, hqn]
    · unfold parsePairs
      match hs : splitFirstEq p.data with
      | none => rfl
      | some kv => rw [ih ⟨q, hq', hqn⟩]; rfl

/-- **C9.** For every `key=value` argument of the `tag` command, the value
string is coerced before the metadata merge: `"true"`/`"false"` ignoring case
become JSON booleans, else a string `int()` accepts becomes a JSON integer,
else a string `float()` accepts becomes a JSON number, else it stays a JSON
string; the pair is split at the first `'='` only, and an argument with no
`'='` makes the command exit with code 2 (kind `invalid_format`). -/
theorem claim_C9 :
    (∀ v : String, pyLower v = pyLower "true" → parseTagValue v = .jbool true) ∧
    (∀ v : String, pyLower v = pyLower "false" → parseTagValue v = .jbool false) ∧
    (∀ (v : String) (n : ℤ), pyLower v ≠ pyLower "true" → pyLower v ≠ pyLower "false" →
      pyInt v = some n → parseTagValue v = .jint n) ∧
    (∀ (v : String) (q : ℚ), pyLower v ≠ pyLower "true" → pyLower v ≠ pyLower "false" →
      pyInt v = none → pyFloat v = some q → parseTagValue v = .jnum q) ∧
    (∀ v : String, pyLower v ≠ pyLower "true" → pyLower v ≠ pyLower "false" →
      pyInt v = none → pyFloat v = none → parseTagValue v = .jstr v) ∧
    (∀ k v : String, '=' ∉ k.data →
      splitFirstEq (k.data ++ '=' :: v.data) = some (k.data, v.data)) ∧
    (∀ (now : ℚ) (s : Store) (idArg : String) (pairs : List String),
      (∃ p ∈ pairs, '=' ∉ p.data) →
      cmdTag now s idArg pairs = .error ⟨.invalid_format, 2⟩) := by
  refine ⟨?_, ?_, ?_, ?_, ?_, ?_, ?_⟩
  · intro v hv; simp [parseTagValue, hv]
  · intro v hv; simp [parseTagValue, hv]; decide
  · intro v n h1 h2 h3; simp [parseTagValue, h1, h2, h3]
  · intro v q h1 h2 h3 h4; simp [parseTagValue, h1, h2, h3, h4]
  · intro v h1 h2 h3 h4; simp [parseTagValue, h1, h2, h3, h4]
  · intro k v hk; exact splitFirstEq_append v.data hk
  · intro now s idArg pairs ⟨p, hp, hpn⟩
    unfold cmdTag
    rw [parsePairs_error ⟨p, hp, splitFirstEq_none hpn⟩]

/-- Witness for C9 at concrete inputs. -/
theorem claim_C9_witness :
    parseTagValue "42" = .jint 42 ∧ parseTagValue "3.5" = .jnum (7 / 2) ∧
    parseTagValue "TRUE" = .jbool true ∧ parseTagValue "hello" = .jstr "hello" ∧
    splitFirstEq ("topic".data ++ '=' :: "kafka".data) = some ("topic".data, "kafka".data) ∧
    cmdTag 0 ⟨[]⟩ "x" ["noequals"] = .error ⟨.invalid_format, 2⟩ := by
  refine ⟨claim_C9.2.2.1 "42" 42 (by decide) (by decide) (by decide),
    claim_C9.2.2.2.1 "3.5" (7 / 2) (by decide) (by decide) (by decide) ?_,
    claim_C9.1 "TRUE" (by decide),
    claim_C9.2.2.2.2.1 "hello" (by decide) (by decide) (by decide) ?_,
    claim_C9.2.2.2.2.2.1 "topic" "kafka" (by decide),
    claim_C9.2.2.2.2.2.2 0 ⟨[]⟩ "x" ["noequals"] ⟨"noequals", by simp, by decide⟩⟩
  · rw [pyFloat, show pyFloatParts "3.5" = some (35, 1, 0) from by decide]
    norm_num
  · rw [pyFloat, show pyFloatParts "hello" = none from by decide]
    rfl

/-- **C10.** `--before`/`--after` date strings: an ISO datetime without
timezone information is interpreted as UTC and converted to a Unix epoch
timestamp, so the resulting filter does not depend on the host's local
offset; a non-ISO string is the `invalid_date` error with exit code 2. -/
theorem claim_C10 :
    (∀ (h1 h2 : ℤ) (s : String), parseDateArg h1 s = parseDateArg h2 s) ∧
    (∀ (h : ℤ) (s : String) (dt : PyDateTime), fromIso s = some dt →
      dt.tz = none →
      parseDateArg h s = .ok (pyTimestamp { dt with tz := some 0 } 0)) ∧
    (∀ (h : ℤ) (s : String), fromIso s = none →
      parseDateArg h s = .error ⟨.invalid_date, 2⟩) := by
  refine ⟨?_, ?_, ?_⟩
  · intro h1 h2 s
    unfold parseDateArg
    match fromIso s with
    | none => rfl
    | some dt => simp [pyTimestamp]
  · intro h s dt hiso htz
    unfold parseDateArg
    rw [hiso]
    simp [htz, pyTimestamp]
  · intro h s hiso
    unfold parseDateArg
    rw [hiso]

/-- Witness for C10 at concrete inputs. -/
theorem claim_C10_witness :
    fromIso "2025-01-01" = some ⟨2025, 1, 1, 0, 0, 0, 0, none⟩ ∧
    parseDateArg 7200 "2025-01-01" = .ok 1735689600 ∧
    parseDateArg 7200 "not-a-date" = .error ⟨.invalid_date, 2⟩ := by
  refine ⟨by decide, ?_, claim_C10.2.2 7200 "not-a-date" (by decide)⟩
  rw [claim_C10.2.1 7200 "2025-01-01" ⟨2025, 1, 1, 0, 0, 0, 0, none⟩ (by decide) rfl]
  norm_num [pyTimestamp, daysFromCivil]

theorem parseJsonArg_error {β : Type} {a : JsonArg β} {e : CliErr}
    (h : parseJsonArg a = .error e) : e = ⟨.invalid_json, 2⟩ := by
  cases a <;> simp [parseJsonArg] at h
  exact h.symm

theorem parseDateArg_error {ho : ℤ} {s : String} {e : CliErr}
    (h : parseDateArg ho s = .error e) : e = ⟨.invalid_date, 2⟩ := by
  unfold parseDateArg at h
  revert h
  match fromIso s with
  | none => intro h; cases h; rfl
  | some dt => intro h; cases h

theorem parseDateOptArg_error {ho : ℤ} {arg : Option String} {e : CliErr}
    (h : parseDateOpt ho arg = Except.error e) : e = ⟨.invalid_date, 2⟩ := by
  unfold parseDateOpt at h
  match arg with
  | none => cases h
  | some b =>
    replace h : Except.map some (parseDateArg ho b) = .error e := h
    rcases hb : parseDateArg ho b with e1 | v
    · rw [hb] at h
      simp only [Except.map] at h
      cases h
      exact parseDateArg_error hb
    · rw [hb] at h
      simp [Except.map] at h

theorem parsePairs_error_shape {pairs : List String} {e : CliErr}
    (h : parsePairs pairs = .error e) : e = ⟨.invalid_format, 2⟩ := by
  induction pairs with
  | nil => cases h
  | cons p rest ih =>
    unfold parsePairs at h
    revert h
    match splitFirstEq p.data with
    | none => intro h; cases h; rfl
    | some kv =>
      intro h
      revert h
      match hr : parsePairs rest with
      | .ok tags => intro h; cases h
      | .error e1 => intro h; cases h; exact ih hr

/-- **C7.** For every CLI invocation, the process exit code is 2 for input
errors (invalid JSON, invalid date, missing required arguments, bad tag
format), 1 for not-found and runtime errors, and 0 otherwise; under `--json`
every error is written to stderr as a JSON object of shape
`{error, message, id?}`.  The quantification over invocations is realised by
quantifying over every error outcome of each modelled command. -/
theorem claim_C7 :
    (∀ k, isInputError k = true → exitCodeOf k = 2) ∧
    (∀ k, isInputError k = false → exitCodeOf k = 1) ∧
    (∀ (β : Type) (x : β), exitCode (.ok x) = 0) ∧
    (∀ P now newId s content ma va ne nd thr e,
      cmdStore P now newId s content ma va ne nd thr = .error e →
      e.code = exitCodeOf e.kind) ∧
    (∀ now s idArg e, cmdGet now s idArg = .error e → e.code = exitCodeOf e.kind) ∧
    (∀ now s idArg content ma va rep e,
      cmdUpdate now s idArg content ma va rep = .error e →
      e.code = exitCodeOf e.kind) ∧
    (∀ now s idArg pairs e, cmdTag now s idArg pairs = .error e →
      e.code = exitCodeOf e.kind) ∧
    (∀ s idArg e, cmdDelete s idArg = .error e → e.code = exitCodeOf e.kind) ∧
    (∀ s idArg lim e, cmdRelated s idArg lim = .error e →
      e.code = exitCodeOf e.kind) ∧
    (∀ P ho s text va fa lim tOnly ba aa e,
      cmdSearch P ho s text va fa lim tOnly ba aa = .error e →
      e.code = exitCodeOf e.kind) ∧
    (∀ ho s ba ty e, cmdPurgePreview ho s ba ty = .error e →
      e.code = exitCodeOf e.kind) ∧
    (∀ ho s ba ty e, cmdPurgeConfirm ho s ba ty = .error e →
      e.code = exitCodeOf e.kind) ∧
    (∀ kind msg, (errObj kind msg none).map Prod.fst = ["error", "message"]) ∧
    (∀ kind msg i, (errObj kind msg (some i)).map Prod.fst =
      ["error", "message", "id"]) := by
  refine ⟨?_, ?_, ?_, ?_, ?_, ?_, ?_, ?_, ?_, ?_, ?_, ?_, ?_, ?_⟩
  · intro k hk; cases k <;> first | rfl | cases hk
  · intro k hk; cases k <;> first | rfl | cases hk
  · intro β x; rfl
  · intro P now newId s content ma va ne nd thr e h
    unfold cmdStore at h
    split at h
    · cases h; rename_i h1; rw [parseJsonArg_error h1]; rfl
    · split at h
      · cases h; rename_i h1; rw [parseJsonArg_error h1]; rfl
      · cases h
  · intro now s idArg e h
    unfold cmdGet at h
    split at h
    · cases h
    · cases h; rfl
  · intro now s idArg content ma va rep e h
    unfold cmdUpdate at h
    split at h
    · cases h; rename_i h1; rw [parseJsonArg_error h1]; rfl
    · split at h
      · cases h; rename_i h1; rw [parseJsonArg_error h1]; rfl
      · split at h
        · cases h; rfl
        · split at h
          · cases h
          · cases h; rfl
  · intro now s idArg pairs e h
    unfold cmdTag at h
    split at h
    · cases h; rename_i h1; rw [parsePairs_error_shape h1]; rfl
    · split at h
      · cases h
      · cases h; rfl
  · intro s idArg e h
    unfold cmdDelete at h
    split at h
    · cases h
    · cases h; rfl
  · intro s idArg lim e h
    unfold cmdRelated at h
    split at h <;> cases h <;> rfl
  · intro P ho s text va fa lim tOnly ba aa e h
    unfold cmdSearch at h
    split at h
    · cases h; rename_i h1; rw [parseJsonArg_error h1]; rfl
    · split at h
      · cases h; rename_i h1; rw [parseJsonArg_error h1]; rfl
      · split at h
        · cases h; rename_i h1; rw [parseDateOptArg_error h1]; rfl
        · split at h
          · cases h; rename_i h1; rw [parseDateOptArg_error h1]; rfl
          · cases h
  · intro ho s ba ty e h
    unfold cmdPurgePreview at h
    split at h
    · cases h; rfl
    · split at h
      · cases h; rename_i h1; rw [parseDateOptArg_error h1]; rfl
      · cases h
  · intro ho s ba ty e h
    unfold cmdPurgeConfirm at h
    split at h
    · cases h; rfl
    · split at h
      · cases h; rename_i h1; rw [parseDateOptArg_error h1]; rfl
      · split at h
        · split at h
          · cases h
          · cases h; rfl
        · cases h
        · cases h
        · cases h
  · intro kind msg; rfl
  · intro kind msg i; rfl

/-- Witness for C7 at concrete inputs. -/
theorem claim_C7_witness :
    exitCodeOf .invalid_json = 2 ∧ exitCodeOf .not_found = 1 ∧
    exitCode (Except.ok (ε := CliErr) (0 : ℕ)) = 0 ∧
    (CliErr.mk .invalid_format 2).code =
      exitCodeOf (CliErr.mk .invalid_format 2).kind := by
  refine ⟨claim_C7.1 .invalid_json rfl, claim_C7.2.1 .not_found rfl,
    claim_C7.2.2.1 ℕ 0, ?_⟩
  exact claim_C7.2.2.2.2.2.2.1 0 ⟨[]⟩ "x" ["noequals"] ⟨.invalid_format, 2⟩ rfl

/-- **C6.** For every mutation operation given an id prefix — `update`,
`delete`, and `tag` (which is `update` with metadata merge, so it is covered
by the quantification over `updateOp`'s arguments) — a prefix matching zero
rows yields `NotFound` and a prefix matching two or more rows yields
`Ambiguous`; the two errors are distinct; `get` (and `get_readonly`)
tolerates resolution failure by returning null and leaving the store
untouched. -/
theorem claim_C6 :
    (∀ (now : ℚ) (s : Store) (p : String) c vec md mg,
      resolveMatches s p = [] →
      updateOp now s p c vec md mg = .error .notFound ∧
      deleteOp s p = .error .notFound) ∧
    (∀ (now : ℚ) (s : Store) (p : String) c vec md mg,
      2 ≤ (resolveMatches s p).length →
      updateOp now s p c vec md mg = .error .ambiguous ∧
      deleteOp s p = .error .ambiguous) ∧
    MErr.notFound ≠ MErr.ambiguous ∧
    (∀ (now : ℚ) (s : Store) (p : String),
      (resolveMatches s p).length ≠ 1 →
      getRO s p = none ∧ (get now s p).1 = none ∧ (get now s p).2 = s) := by
  refine ⟨?_, ?_, by decide, ?_⟩
  · intro now s p c vec md mg h
    constructor
    · unfold updateOp; rw [h]
    · unfold deleteOp; rw [h]
  · intro now s p c vec md mg h
    match hm : resolveMatches s p with
    | [] => rw [hm] at h; simp at h
    | [m] => rw [hm] at h; simp at h
    | a :: b :: rest =>
      constructor
      · unfold updateOp; rw [hm]
      · unfold deleteOp; rw [hm]
  · intro now s p h
    have hro : getRO s p = none := by
      unfold getRO
      match hm : resolveMatches s p with
      | [] => rfl
      | [m] => rw [hm] at h; simp at h
      | a :: b :: rest => rfl
    refine ⟨hro, ?_, ?_⟩ <;> simp [get, hro]

/-- Witness for C6: two rows share the prefix `"aaa"`, none matches `"zzz"`. -/
theorem claim_C6_witness :
    (updateOp 9 ⟨[mkRow "aaa11111" "first" none none 1, mkRow "aaa22222" "second" none none 2]⟩
        "aaa" (some "x") none none true = .error .ambiguous) ∧
    (updateOp 9 ⟨[mkRow "aaa11111" "first" none none 1, mkRow "aaa22222" "second" none none 2]⟩
        "zzz" (some "x") none none true = .error .notFound) ∧
    (getRO ⟨[mkRow "aaa11111" "first" none none 1, mkRow "aaa22222" "second" none none 2]⟩
        "aaa" = none) := by
  refine ⟨(claim_C6.2.1 9 _ "aaa" (some "x") none none true (by decide)).1,
    (claim_C6.1 9 _ "zzz" (some "x") none none true (by decide)).1,
    (claim_C6.2.2.2 9 _ "aaa" (by decide)).1⟩

/-! ### Access-tracking frame effects -/

/-- `search` as a state-passing call: it returns results and leaves the store
(the retriever never mutates access counters, `spec.md` §4.2.1). -/
def searchCall (P : Ports) (s : Store) (vector : Option (List ℚ))
    (text : Option String) (filt : Option Metadata) (limit : ℕ)
    (text_only : Bool) (before after : Option ℚ) : List Mem × Store :=
  (searchMems P s vector text filt limit text_only before after, s)

/-- `list` as a state-passing call. -/
def listCall (s : Store) (tf : Option String) (sort : SortKey)
    (limit offset : ℕ) (before after : Option ℚ) : List Mem × Store :=
  (listMems s tf sort limit offset before after, s)

/-- `related` as a state-passing call. -/
def relatedCall (s : Store) (p : String) (limit : ℕ) :
    Except MErr (List Mem) × Store :=
  (relatedOp s p limit, s)

/-- The access-tracking fields of a row, keyed by id. -/
def accessProj (m : Mem) : String × Option ℚ × ℕ :=
  (m.id, m.last_accessed, m.access_count)

theorem getRO_eq_some {s : Store} {p : String} {m : Mem}
    (h : getRO s p = some m) : resolveMatches s p = [m] := by
  unfold getRO at h
  revert h
  match hm : resolveMatches s p with
  | [] => intro h; cases h
  | [x] => intro h; cases h; rfl
  | a :: b :: rest => intro h; cases h

theorem resolveMatches_map {f : Mem → Mem} (hf : ∀ m, (f m).id = m.id)
    (s : Store) (p : String) :
    resolveMatches ⟨s.rows.map f⟩ p = (resolveMatches s p).map f := by
  unfold resolveMatches
  induction s.rows with
  | nil => rfl
  | cons r rest ih =>
    simp only [List.map_cons, List.filter_cons, hf]
    split <;> simp_all

/-- **C2.** `search`, `list`, `related`, `update`, `tag`, and `delete` leave
every row's `access_count` and `last_accessed` unchanged (`tag` is `update`
with metadata merge, covered by the quantification over `updateOp`'s
arguments; `delete` only removes rows, keeping the survivors intact), while
two consecutive `get` calls on the same row report `n` then `n + 1` — each
`get` returns the pre-increment snapshot. -/
theorem claim_C2 :
    (∀ P s vector text filt limit tOnly b a,
      (searchCall P s vector text filt limit tOnly b a).2 = s) ∧
    (∀ s tf sort limit off b a, (listCall s tf sort limit off b a).2 = s) ∧
    (∀ s p limit, (relatedCall s p limit).2 = s) ∧
    (∀ (now : ℚ) s p c vec md mg s', updateOp now s p c vec md mg = .ok s' →
      s'.rows.map accessProj = s.rows.map accessProj) ∧
    (∀ s p s', deleteOp s p = .ok s' → ∀ m' ∈ s'.rows, m' ∈ s.rows) ∧
    (∀ (now1 now2 : ℚ) s p m1 s1, get now1 s p = (some m1, s1) →
      ∃ m2 s2, get now2 s1 p = (some m2, s2) ∧
        m2.access_count = m1.access_count + 1 ∧
        m2.last_accessed = some now1) := by
  refine ⟨fun _ _ _ _ _ _ _ _ _ => rfl, fun _ _ _ _ _ _ _ => rfl,
    fun _ _ _ => rfl, ?_, ?_, ?_⟩
  · intro now s p c vec md mg s' h
    unfold updateOp at h
    revert h
    match hm : resolveMatches s p with
    | [] => intro h; cases h
    | [m] =>
      intro h
      cases h
      simp only [List.map_map]
      refine List.map_congr_left (fun r _ => ?_)
      by_cases hr : r.id = m.id <;> simp [hr, applyUpdate, accessProj]
    | a :: b :: rest => intro h; cases h
  · intro s p s' h
    unfold deleteOp at h
    revert h
    match hm : resolveMatches s p with
    | [] => intro h; cases h
    | [m] =>
      intro h
      cases h
      intro m' hm'
      exact List.mem_of_mem_filter hm'
    | a :: b :: rest => intro h; cases h
  · intro now1 now2 s p m1 s1 h1
    unfold get at h1
    revert h1
    match hro : getRO s p with
    | none => intro h1; cases h1
    | some m =>
      intro h1
      rw [Prod.mk.injEq] at h1
      obtain ⟨ha, hb⟩ := h1
      rw [Option.some.injEq] at ha
      subst ha
      subst hb
      set f : Mem → Mem := fun r =>
        if r.id = m.id then
          { r with last_accessed := some now1, access_count := r.access_count + 1 }
        else r with hfdef
      have hf : ∀ r, (f r).id = r.id := by
        intro r; rw [hfdef]; by_cases hr : r.id = m.id <;> simp [hr]
      have hres : resolveMatches ⟨s.rows.map f⟩ p = [f m] := by
        rw [resolveMatches_map hf s p, getRO_eq_some hro]
        rfl
      have hro2 : getRO ⟨s.rows.map f⟩ p = some (f m) := by
        unfold getRO
        rw [hres]
      refine ⟨f m, (get now2 ⟨s.rows.map f⟩ p).2, ?_, ?_, ?_⟩
      · unfold get
        rw [hro2]
      · rw [hfdef]; simp
      · rw [hfdef]; simp

/-- Witness for C2's hypothesis-bearing parts at a concrete store. -/
theorem claim_C2_witness :
    (∃ s', updateOp 5 ⟨[mkRow "aaa11111" "c" none none 1]⟩ "aaa" (some "x") none
        (some [("k", .jint 3)]) true = .ok s' ∧
      s'.rows.map accessProj = [("aaa11111", none, 0)]) ∧
    (∃ m2 s2, get 7 ⟨[{ mkRow "aaa11111" "c" none none 1 with access_count := 4 },
          mkRow "bbb22222" "d" none none 2]⟩ "aaa" =
        (some m2, s2) ∧ m2.access_count = 4) ∧
    (∃ m3 s3 m4 s4,
      get 7 ⟨[mkRow "aaa11111" "c" none none 1]⟩ "aaa" = (some m3, s3) ∧
      get 8 s3 "aaa" = (some m4, s4) ∧
      m4.access_count = m3.access_count + 1 ∧ m4.last_accessed = some 7) := by
  refine ⟨⟨_, rfl, by decide⟩, ⟨_, _, rfl, by decide⟩, ?_⟩
  have h := claim_C2.2.2.2.2.2 7 8 ⟨[mkRow "aaa11111" "c" none none 1]⟩ "aaa"
    ((get 7 ⟨[mkRow "aaa11111" "c" none none 1]⟩ "aaa").1.getD (mkRow "" "" none none 0))
    (get 7 ⟨[mkRow "aaa11111" "c" none none 1]⟩ "aaa").2 (by decide)
  rcases h with ⟨m2, s2, h2, hc, hl⟩
  exact ⟨_, _, m2, s2, by decide, h2, hc, hl⟩

/-! ### Dedup on insert -/

/-- **C1.** When a second insert carries the same `metadata.type` as a first
insert's row and their vectors have cosine similarity ≥ the threshold, the
second insert returns the first row's id with `action = deduplicated`,
rewrites that row's content, and leaves `count()` unchanged; dedup is skipped
unconditionally when the effective vector or `metadata.type` is absent; and
the threshold the CLI uses when the host asks for dedup without specifying is
`0.92`.  (The pre-state `s0` carries no row of the shared type and does not
contain the fresh id, which pins the dedup hit to the first insert's row.) -/
theorem claim_C1 :
    (∀ (P : Ports) (now1 now2 : ℚ) (idA idB : String) (s0 : Store)
      (c1 c2 : String) (v1 v2 : List ℚ) (md1 md2 : Metadata) (ty : JVal)
      (t : ℚ) (dt1 : Option ℚ) (ne1 ne2 : Bool),
      metaType (some md1) = some ty →
      metaType (some md2) = some ty →
      (∀ m ∈ s0.rows, metaType m.metadata ≠ some ty) →
      (∀ m ∈ s0.rows, m.id ≠ idA) →
      cosSimGe v2 v1 t →
      insert P now1 idA s0 c1 (some v1) (some md1) dt1 ne1 =
        ((idA, .created), ⟨s0.rows ++ [mkRow idA c1 (some md1) (some v1) now1]⟩) ∧
      ((insert P now2 idB ⟨s0.rows ++ [mkRow idA c1 (some md1) (some v1) now1]⟩
          c2 (some v2) (some md2) (some t) ne2).1 = (idA, .deduplicated) ∧
        count (insert P now2 idB ⟨s0.rows ++ [mkRow idA c1 (some md1) (some v1) now1]⟩
          c2 (some v2) (some md2) (some t) ne2).2 =
          count ⟨s0.rows ++ [mkRow idA c1 (some md1) (some v1) now1]⟩ ∧
        ∀ m ∈ (insert P now2 idB ⟨s0.rows ++ [mkRow idA c1 (some md1) (some v1) now1]⟩
          c2 (some v2) (some md2) (some t) ne2).2.rows,
          m.id = idA → m.content = c2 ∧ m.vector = some v1)) ∧
    (∀ (P : Ports) (now : ℚ) (newId : String) (s : Store) (c : String)
      (vec : Option (List ℚ)) (md : Option Metadata) (thr : Option ℚ) (ne : Bool),
      effectiveVector P c vec ne = none →
      (insert P now newId s c vec md thr ne).1.2 = .created) ∧
    (∀ (P : Ports) (now : ℚ) (newId : String) (s : Store) (c : String)
      (vec : Option (List ℚ)) (md : Option Metadata) (thr : Option ℚ) (ne : Bool),
      metaType md = none →
      (insert P now newId s c vec md thr ne).1.2 = .created) ∧
    DEFAULT_DEDUP_THRESHOLD = 92 / 100 ∧
    cmdStoreThreshold false DEFAULT_DEDUP_THRESHOLD = some (92 / 100) ∧
    (∀ thr, cmdStoreThreshold true thr = none) := by
  refine ⟨?_, ?_, ?_, rfl, rfl, fun thr => rfl⟩
  · intro P now1 now2 idA idB s0 c1 c2 v1 v2 md1 md2 ty t dt1 ne1 ne2
      hty1 hty2 hclean hfresh hcos
    have hcands0 : ∀ (v : List ℚ),
        s0.rows.filter (fun m => m.vector.isSome &&
          decide (metaType m.metadata = some ty)) = [] := by
      intro v
      rw [List.filter_eq_nil_iff]
      intro m hm
      simp [hclean m hm]
    have h1 : insert P now1 idA s0 c1 (some v1) (some md1) dt1 ne1 =
        ((idA, .created), ⟨s0.rows ++ [mkRow idA c1 (some md1) (some v1) now1]⟩) := by
      unfold insert
      simp only [effectiveVector]
      match dt1 with
      | none => rfl
      | some t1 =>
        have hc : dedupCandidates s0 ty = [] := by
          unfold dedupCandidates; exact hcands0 v1
        simp only [hty1, hc]
        rfl
    refine ⟨h1, ?_⟩
    have hviso : (mkRow idA c1 (some md1) (some v1) now1).vector.isSome = true := rfl
    have hmeta : metaType (mkRow idA c1 (some md1) (some v1) now1).metadata = some ty := hty1
    have hcands : dedupCandidates ⟨s0.rows ++ [mkRow idA c1 (some md1) (some v1) now1]⟩ ty =
        [mkRow idA c1 (some md1) (some v1) now1] := by
      unfold dedupCandidates
      rw [List.filter_append, hcands0 v2]
      simp [List.filter_cons, hviso, hmeta]
    have hbest : bestCandidate v2 (dedupCandidates
        ⟨s0.rows ++ [mkRow idA c1 (some md1) (some v1) now1]⟩ ty) =
        some (mkRow idA c1 (some md1) (some v1) now1) := by
      rw [hcands]
      rfl
    have h2 : insert P now2 idB ⟨s0.rows ++ [mkRow idA c1 (some md1) (some v1) now1]⟩
        c2 (some v2) (some md2) (some t) ne2 =
        ((idA, .deduplicated),
          ⟨(s0.rows ++ [mkRow idA c1 (some md1) (some v1) now1]).map (fun m =>
            if m.id = idA then { m with content := c2, updated_at := now2 } else m)⟩) := by
      unfold insert
      simp only [effectiveVector, hty2, hbest]
      rw [show (mkRow idA c1 (some md1) (some v1) now1).vector.getD [] = v1 from rfl]
      rw [if_pos hcos]
      rfl
    rw [h2]
    refine ⟨rfl, by simp [count], ?_⟩
    intro m hm hid
    simp only [List.map_append, List.mem_append] at hm
    rcases hm with hm | hm
    · rcases List.mem_map.1 hm with ⟨r, hr, hrm⟩
      by_cases hrid : r.id = idA
      · exact absurd hrid (hfresh r hr)
      · rw [if_neg hrid] at hrm
        exact absurd (hrm ▸ hid) hrid
    · simp only [List.map_cons, List.map_nil, List.mem_singleton] at hm
      rw [hm]
      simp [mkRow]
  · intro P now newId s c vec md thr ne heff
    unfold insert
    rw [heff]
    match thr, metaType md with
    | none, _ => rfl
    | some t, none => rfl
    | some t, some ty => rfl
  · intro P now newId s c vec md thr ne hmd
    unfold insert
    rw [hmd]
    match thr, effectiveVector P c vec ne with
    | none, _ => rfl
    | some t, none => rfl
    | some t, some v => rfl

/-- Witness for C1: the S2 scenario of `spec.md` §8 — two `"arch"`-typed
inserts with vectors `[1,0,0]` and `[0.99,0.01,0]` at threshold `0.92`. -/
theorem claim_C1_witness :
    (insert ⟨fun _ => none, fun _ _ => none⟩ 10 "aaaa1111" ⟨[]⟩
        "kafka architecture" (some [1, 0, 0]) (some [("type", .jstr "arch")])
        (some (92 / 100)) false).1 = ("aaaa1111", .created) ∧
    ((insert ⟨fun _ => none, fun _ _ => none⟩ 20 "bbbb2222"
        ⟨[mkRow "aaaa1111" "kafka architecture" (some [("type", .jstr "arch")])
            (some [1, 0, 0]) 10]⟩
        "kafka arch notes" (some [99 / 100, 1 / 100, 0])
        (some [("type", .jstr "arch")]) (some (92 / 100)) false).1 =
      ("aaaa1111", .deduplicated)) := by
  have h := claim_C1.1 ⟨fun _ => none, fun _ _ => none⟩ 10 20 "aaaa1111" "bbbb2222"
    ⟨[]⟩ "kafka architecture" "kafka arch notes" [1, 0, 0] [99 / 100, 1 / 100, 0]
    [("type", .jstr "arch")] [("type", .jstr "arch")] (.jstr "arch") (92 / 100)
    (some (92 / 100)) false false rfl rfl (by simp) (by simp)
    (by constructor <;> norm_num [norm2, dot, signSq])
  exact ⟨by rw [h.1], h.2.1⟩

/-! ### Purge: preview vs confirm -/

theorem parseDateOpt_ok {ho : ℤ} {bstr : String} {b : ℚ}
    (h : parseDateArg ho bstr = .ok b) :
    parseDateOpt ho (some bstr) = .ok (some b) := by
  show Except.map some (parseDateArg ho bstr) = .ok (some b)
  rw [h]
  rfl

theorem filter_eq_singleton {l : List Mem} {m : Mem} {p : Mem → Bool}
    (hm : m ∈ l) (hids : (l.map Mem.id).Nodup) (hpm : p m = true)
    (hother : ∀ r ∈ l, p r = true → r = m) : l.filter p = [m] := by
  induction l with
  | nil => cases hm
  | cons a rest ih =>
    have hids' : (rest.map Mem.id).Nodup := (List.nodup_cons.1 hids).2
    by_cases hpa : p a = true
    · have ham : a = m := hother a (List.mem_cons_self a rest) hpa
      subst ham
      have hnot : ∀ r ∈ rest, ¬ (p r = true) := by
        intro r hr hpr
        have : r = a := hother r (List.mem_cons_of_mem a hr) hpr
        subst this
        exact (List.nodup_cons.1 hids).1 (List.mem_map_of_mem Mem.id hr)
      rw [List.filter_cons_of_pos hpa, List.filter_eq_nil_iff.2 hnot]
    · have ham : m ∈ rest := by
        rcases List.mem_cons.1 hm with rfl | h
        · exact absurd hpm hpa
        · exact h
      rw [List.filter_cons_of_neg hpa]
      exact ih ham hids' (fun r hr hpr => hother r (List.mem_cons_of_mem a hr) hpr)

theorem resolveMatches_self {s : Store} {m : Mem} (hwf : WF s)
    (hm : m ∈ s.rows) : resolveMatches s m.id = [m] := by
  unfold resolveMatches
  refine filter_eq_singleton hm hwf.1 ?_ ?_
  · exact List.isPrefixOf_iff_prefix.2 (List.prefix_refl _)
  · intro r hr hpr
    have hid : m.id = r.id := hwf.2 m hm r hr (by simpa using hpr)
    exact List.inj_on_of_nodup_map hwf.1 hr hm hid.symm

theorem WF_delete {s : Store} (hwf : WF s) (mid : String) :
    WF ⟨s.rows.filter (fun r => r.id ≠ mid)⟩ := by
  have hsub : List.Sublist (s.rows.filter (fun r => r.id ≠ mid)) s.rows :=
    List.filter_sublist s.rows
  refine ⟨List.Sublist.nodup (hsub.map Mem.id) hwf.1, ?_⟩
  intro a ha b hb hp
  exact hwf.2 a (hsub.mem ha) b (hsub.mem hb) hp

/-- When the rows to delete all live in a well-formed store and carry
distinct ids, the per-row delete loop succeeds. -/
theorem deleteEach_ok {l : List Mem} {s : Store} (hwf : WF s)
    (hsub : ∀ m ∈ l, m ∈ s.rows) (hids : (l.map Mem.id).Nodup) :
    ∃ s', deleteEach s l = .ok s' := by
  induction l generalizing s with
  | nil => exact ⟨s, rfl⟩
  | cons m rest ih =>
    have hm : m ∈ s.rows := hsub m (List.mem_cons_self m rest)
    have hdel : deleteOp s m.id = .ok ⟨s.rows.filter (fun r => r.id ≠ m.id)⟩ := by
      unfold deleteOp
      rw [resolveMatches_self hwf hm]
    have hsub' : ∀ r ∈ rest, r ∈ (s.rows.filter (fun x => x.id ≠ m.id)) := by
      intro r hr
      have hrs : r ∈ s.rows := hsub r (List.mem_cons_of_mem m hr)
      have hne : ¬ (r.id = m.id) := by
        intro he
        exact (List.nodup_cons.1 hids).1 (he ▸ List.mem_map_of_mem Mem.id hr)
      simp [List.mem_filter, hrs, hne]
    rcases ih (WF_delete hwf m.id) hsub' (List.nodup_cons.1 hids).2 with ⟨s', hs'⟩
    refine ⟨s', ?_⟩
    unfold deleteEach
    rw [hdel]
    exact hs'

theorem purgeList_sub {s : Store} {ty : Option String} {b : Option ℚ} :
    ∀ m ∈ purgeList s ty b, m ∈ s.rows := by
  intro m hm
  unfold purgeList listMems at hm
  have h1 := List.mem_of_mem_take hm
  have h2 := List.mem_of_mem_drop h1
  have h3 := (List.Perm.mem_iff (List.perm_insertionSort _ _)).1 h2
  exact List.mem_of_mem_filter h3

theorem purgeList_nodup {s : Store} {ty : Option String} {b : Option ℚ}
    (hwf : WF s) : ((purgeList s ty b).map Mem.id).Nodup := by
  unfold purgeList listMems
  have h1 : ((s.rows.filter
      (fun m => decide (listPred ty b none m))).map Mem.id).Nodup :=
    List.Sublist.nodup ((List.filter_sublist s.rows).map Mem.id) hwf.1
  have h2 := ((List.perm_insertionSort
    (lexLe (listKey .created) Mem.id)
    (s.rows.filter (fun m => decide (listPred ty b none m)))).map Mem.id).nodup_iff.2 h1
  have h3 := ((((s.rows.filter (fun m => decide (listPred ty b none m))).insertionSort
    (lexLe (listKey .created) Mem.id)).drop_sublist 0).map Mem.id).nodup h2
  exact ((List.take_sublist 1000000 _).map Mem.id).nodup h3

/-- The counterexample store for C4: 1,000,001 old rows. -/
def bigStore : Store := ⟨List.replicate 1000001 (mkRow "r" "x" none none 0)⟩

theorem parse20000101 : parseDateArg 0 "2000-01-01" = .ok 946684800 := by
  unfold parseDateArg
  rw [show fromIso "2000-01-01" = some ⟨2000, 1, 1, 0, 0, 0, 0, none⟩ from by decide]
  norm_num [pyTimestamp, daysFromCivil]

/-- **C4 (counterexample).** The claim fails as stated: with only `--before`
and 1,000,001 matching rows, the dry-run preview reports 1,000,000 (its
listing is capped at `limit=1_000_000`) while `--confirm` deletes all
1,000,001 through `delete_before`. -/
theorem claim_C4_counterexample :
    cmdPurgePreview 0 bigStore (some "2000-01-01") none = .ok 1000000 ∧
    (cmdPurgeConfirm 0 bigStore (some "2000-01-01") none).map Prod.fst =
      .ok 1000001 := by
  have hpred : ∀ m ∈ bigStore.rows, decide (listPred none (some 946684800) none m) = true := by
    intro m hm
    rw [List.eq_of_mem_replicate hm]
    decide
  have hfilt : bigStore.rows.filter
      (fun m => decide (listPred none (some 946684800) none m)) = bigStore.rows :=
    List.filter_eq_self.2 hpred
  constructor
  · unfold cmdPurgePreview
    rw [if_neg (by simp)]
    simp only [parseDateOpt_ok parse20000101]
    unfold purgeList listMems
    rw [hfilt]
    rw [List.drop_zero, List.length_take, List.length_insertionSort]
    rw [show bigStore.rows.length = 1000001 from List.length_replicate ..]
    rw [show (1000000 : ℕ) ⊓ 1000001 = 1000000 from by norm_num]
  · have hcnt : (deleteBefore bigStore 946684800).1 = 1000001 := by
      unfold deleteBefore
      simp only []
      rw [List.countP_eq_length.2 (by
        intro m hm
        rw [List.eq_of_mem_replicate hm]
        decide)]
      exact List.length_replicate ..
    unfold cmdPurgeConfirm
    rw [if_neg (by simp)]
    simp only [parseDateOpt_ok parse20000101, Except.map]
    rw [hcnt]

/-- **C4 (amended).** For every purge criterion, the dry-run preview count
equals the count reported by the subsequent `--confirm` run on the same
state, provided at most 1,000,000 rows match the criterion (the preview
listing is capped at `limit=1_000_000`); for the combined before-and-type
criterion no cap hypothesis is needed because preview and confirm share the
same capped listing, but the store must be well-formed for the per-row
deletes to resolve. -/
theorem claim_C4_amended :
    (∀ (ho : ℤ) (s : Store) (bstr t : String) (b : ℚ),
      WF s → parseDateArg ho bstr = .ok b →
      ∃ s', cmdPurgePreview ho s (some bstr) (some t) =
          .ok (purgeList s (some t) (some b)).length ∧
        cmdPurgeConfirm ho s (some bstr) (some t) =
          .ok ((purgeList s (some t) (some b)).length, s')) ∧
    (∀ (ho : ℤ) (s : Store) (bstr : String) (b : ℚ),
      parseDateArg ho bstr = .ok b →
      s.rows.countP (fun m => decide (m.created_at < b)) ≤ 1000000 →
      cmdPurgePreview ho s (some bstr) none = .ok (deleteBefore s b).1 ∧
      cmdPurgeConfirm ho s (some bstr) none = .ok (deleteBefore s b)) ∧
    (∀ (ho : ℤ) (s : Store) (t : String),
      s.rows.countP
          (fun m => decide (metaType m.metadata = some (.jstr t))) ≤ 1000000 →
      cmdPurgePreview ho s none (some t) = .ok (deleteByType s t).1 ∧
      cmdPurgeConfirm ho s none (some t) = .ok (deleteByType s t)) := by
  refine ⟨?_, ?_, ?_⟩
  · intro ho s bstr t b hwf hb
    rcases deleteEach_ok (l := purgeList s (some t) (some b)) hwf
      purgeList_sub (purgeList_nodup hwf) with ⟨s', hs'⟩
    refine ⟨s', ?_, ?_⟩
    · unfold cmdPurgePreview
      rw [if_neg (by simp)]
      simp only [parseDateOpt_ok hb]
    · unfold cmdPurgeConfirm
      rw [if_neg (by simp)]
      simp only [parseDateOpt_ok hb]
      rw [hs']
  · intro ho s bstr b hb hcap
    have hcount : (purgeList s none (some b)).length = (deleteBefore s b).1 := by
      unfold purgeList listMems deleteBefore
      simp only [List.drop_zero, List.length_take, List.length_insertionSort]
      rw [← List.countP_eq_length_filter]
      rw [List.countP_congr (q := fun m => decide (m.created_at < b)) (by
        intro m hm
        simp [listPred, inDateRange])]
      exact min_eq_right hcap
    constructor
    · unfold cmdPurgePreview
      rw [if_neg (by simp)]
      simp only [parseDateOpt_ok hb]
      rw [hcount]
    · unfold cmdPurgeConfirm
      rw [if_neg (by simp)]
      simp only [parseDateOpt_ok hb]
  · intro ho s t hcap
    have hcount : (purgeList s (some t) none).length = (deleteByType s t).1 := by
      unfold purgeList listMems deleteByType
      simp only [List.drop_zero, List.length_take, List.length_insertionSort]
      rw [← List.countP_eq_length_filter]
      rw [List.countP_congr
        (q := fun m => decide (metaType m.metadata = some (.jstr t))) (by
        intro m hm
        simp [listPred, inDateRange])]
      exact min_eq_right hcap
    constructor
    · unfold cmdPurgePreview
      rw [if_neg (by simp)]
      simp only [show parseDateOpt ho none = .ok none from rfl]
      rw [hcount]
    · unfold cmdPurgeConfirm
      rw [if_neg (by simp)]
      simp only [show parseDateOpt ho none = .ok none from rfl]

/-- Witness for the amended C4 at the S5 scenario: four rows, cutoff between
old and new, criterion `before ∧ type = "temp"`; the preview and the confirm
both report exactly one row. -/
theorem claim_C4_amended_witness :
    ∃ s', cmdPurgePreview 0
        ⟨[mkRow "aaaa1111" "old temp" (some [("type", .jstr "temp")]) none 100,
          mkRow "bbbb2222" "old fact" (some [("type", .jstr "fact")]) none 100,
          mkRow "cccc3333" "new temp" (some [("type", .jstr "temp")]) none 999999999999,
          mkRow "dddd4444" "new fact" (some [("type", .jstr "fact")]) none 999999999999]⟩
        (some "2000-01-01") (some "temp") = .ok 1 ∧
      cmdPurgeConfirm 0
        ⟨[mkRow "aaaa1111" "old temp" (some [("type", .jstr "temp")]) none 100,
          mkRow "bbbb2222" "old fact" (some [("type", .jstr "fact")]) none 100,
          mkRow "cccc3333" "new temp" (some [("type", .jstr "temp")]) none 999999999999,
          mkRow "dddd4444" "new fact" (some [("type", .jstr "fact")]) none 999999999999]⟩
        (some "2000-01-01") (some "temp") = .ok (1, s') := by
  rcases claim_C4_amended.1 0
    ⟨[mkRow "aaaa1111" "old temp" (some [("type", .jstr "temp")]) none 100,
      mkRow "bbbb2222" "old fact" (some [("type", .jstr "fact")]) none 100,
      mkRow "cccc3333" "new temp" (some [("type", .jstr "temp")]) none 999999999999,
      mkRow "dddd4444" "new fact" (some [("type", .jstr "fact")]) none 999999999999]⟩
    "2000-01-01" "temp" 946684800 (by constructor <;> decide) parse20000101
    with ⟨s', h1, h2⟩
  have hlen : (purgeList
      ⟨[mkRow "aaaa1111" "old temp" (some [("type", .jstr "temp")]) none 100,
        mkRow "bbbb2222" "old fact" (some [("type", .jstr "fact")]) none 100,
        mkRow "cccc3333" "new temp" (some [("type", .jstr "temp")]) none 999999999999,
        mkRow "dddd4444" "new fact" (some [("type", .jstr "fact")]) none 999999999999]⟩
      (some "temp") (some 946684800)).length = 1 := by
    unfold purgeList listMems
    rw [show List.filter (fun m => decide (listPred (some "temp") (some 946684800) none m))
      [mkRow "aaaa1111" "old temp" (some [("type", .jstr "temp")]) none 100,
        mkRow "bbbb2222" "old fact" (some [("type", .jstr "fact")]) none 100,
        mkRow "cccc3333" "new temp" (some [("type", .jstr "temp")]) none 999999999999,
        mkRow "dddd4444" "new fact" (some [("type", .jstr "fact")]) none 999999999999] =
      [mkRow "aaaa1111" "old temp" (some [("type", .jstr "temp")]) none 100] from by decide]
    rfl
  rw [hlen] at h1 h2
  exact ⟨s', h1, h2⟩

/-! ### Export / import round trip -/

/-- The full `created`-sorted listing order of a store. -/
def sortedRows (s : Store) : List Mem :=
  s.rows.insertionSort (lexLe (listKey .created) Mem.id)

/-- The row a non-`--new-ids` import materializes from a record (after
`set_access_stats` when the record carries history). -/
def entryToRow (e : ExportEntry) : Mem :=
  ⟨e.id, e.content, e.metadata, e.vector, e.created_at, e.updated_at,
    e.last_accessed, e.access_count⟩

/-- Dropping the vector, as a default export-import round trip does. -/
def stripVector (m : Mem) : Mem := { m with vector := none }

/-- The row fields the CLI `list --json` emits (no vector). -/
def listedFields (m : Mem) :
    String × String × Option Metadata × ℚ × ℚ × Option ℚ × ℕ :=
  (m.id, m.content, m.metadata, m.created_at, m.updated_at, m.last_accessed,
    m.access_count)

theorem filter_trivial (s : Store) :
    s.rows.filter (fun m => decide (listPred none none none m)) = s.rows := by
  refine List.filter_eq_self.2 (fun m hm => ?_)
  simp [listPred, inDateRange]

theorem listMems_page (s : Store) (limit offset : ℕ) :
    listMems s none .created limit offset none none =
      ((sortedRows s).drop offset).take limit := by
  unfold listMems sortedRows
  rw [filter_trivial]

theorem listMems_all (s : Store) :
    listMems s none .created (count s) 0 none none = sortedRows s := by
  rw [listMems_page, List.drop_zero]
  refine List.take_of_length_le ?_
  unfold sortedRows count
  rw [List.length_insertionSort]

theorem exportLoop_eq (s : Store) (iv : Bool) :
    ∀ (fuel offset : ℕ), (sortedRows s).length ≤ offset + 100 * fuel →
      exportLoop s iv offset fuel = ((sortedRows s).drop offset).map (toEntry iv) := by
  intro fuel
  induction fuel with
  | zero =>
    intro offset h
    rw [List.drop_eq_nil_of_le (by simpa using h)]
    rfl
  | succ n ih =>
    intro offset h
    unfold exportLoop
    rw [listMems_page]
    by_cases hemp : (((sortedRows s).drop offset).take 100).isEmpty
    · rw [if_pos hemp]
      rw [List.isEmpty_iff] at hemp
      have : (sortedRows s).drop offset = [] := by
        rcases List.take_eq_nil_iff.1 hemp with h100 | hnil
        · cases h100
        · exact hnil
      rw [this]
      rfl
    · rw [if_neg hemp]
      by_cases hshort : (((sortedRows s).drop offset).take 100).length < 100
      · rw [if_pos hshort]
        have hlen : ((sortedRows s).drop offset).length ≤ 100 := by
          rw [List.length_take] at hshort
          omega
        rw [List.take_of_length_le hlen, List.append_nil]
      · rw [if_neg hshort]
        have hlen : (((sortedRows s).drop offset).take 100).length = 100 := by
          have := List.length_take 100 ((sortedRows s).drop offset)
          omega
        rw [hlen]
        rw [ih (offset + 100) (by omega)]
        rw [← List.map_append]
        congr 1
        rw [← List.drop_drop]
        exact List.take_append_drop 100 ((sortedRows s).drop offset)

theorem cmdExport_eq (s : Store) (iv : Bool) :
    cmdExport s iv = (sortedRows s).map (toEntry iv) := by
  unfold cmdExport
  rw [exportLoop_eq s iv (s.rows.length + 1) 0 (by
    unfold sortedRows
    rw [List.length_insertionSort]
    omega)]
  rw [List.drop_zero]

theorem cmdImport_clean :
    ∀ (entries : List ExportEntry) (s0 : Store),
      (entries.map ExportEntry.id).Nodup →
      (∀ e ∈ entries, e.id ∉ s0.rows.map Mem.id) →
      cmdImport s0 entries =
        (⟨s0.rows ++ entries.map entryToRow⟩, (entries.length, 0)) := by
  intro entries
  induction entries with
  | nil =>
    intro s0 _ _
    simp [cmdImport]
  | cons e rest ih =>
    intro s0 hids hdisj
    have hnotin : e.id ∉ s0.rows.map Mem.id :=
      hdisj e (List.mem_cons_self e rest)
    have hbase : insertWithId s0 e.id e.content e.vector e.metadata
        e.created_at e.updated_at =
        some ⟨s0.rows ++ [Mem.mk e.id e.content e.metadata e.vector
          e.created_at e.updated_at none 0]⟩ := by
      unfold insertWithId
      rw [if_neg hnotin]
    have hmap0 : s0.rows.map (fun m =>
        if m.id = e.id then
          { m with last_accessed := e.last_accessed, access_count := e.access_count }
        else m) = s0.rows := by
      conv_rhs => rw [← List.map_id s0.rows]
      refine List.map_congr_left (fun r hr => ?_)
      rw [if_neg (fun he => hnotin (by
        rw [← he]
        exact List.mem_map_of_mem Mem.id hr))]
      rfl
    have hentry : importEntry s0 e = some ⟨s0.rows ++ [entryToRow e]⟩ := by
      unfold importEntry
      simp only [hbase]
      by_cases hcond : e.last_accessed ≠ none ∨ 0 < e.access_count
      · rw [if_pos hcond]
        unfold setAccessStats
        simp only [List.map_append, hmap0]
        simp [entryToRow]
      · rw [if_neg hcond]
        push_neg at hcond
        have h1 : e.last_accessed = none := hcond.1
        have h2 : e.access_count = 0 := Nat.le_zero.1 hcond.2
        rw [show Mem.mk e.id e.content e.metadata e.vector e.created_at
          e.updated_at none 0 = entryToRow e from by rw [entryToRow, h1, h2]]
    have hdisj' : ∀ x ∈ rest, x.id ∉
        (Store.mk (s0.rows ++ [entryToRow e])).rows.map Mem.id := by
      intro x hx
      simp only [List.map_append, List.mem_append]
      rintro (hin | hin)
      · exact hdisj x (List.mem_cons_of_mem e hx) hin
      · simp only [List.map_cons, List.map_nil, List.mem_singleton] at hin
        exact (List.nodup_cons.1 hids).1 (by
          rw [show (entryToRow e).id = e.id from rfl] at hin
          exact hin ▸ List.mem_map_of_mem ExportEntry.id hx)
    unfold cmdImport
    simp only [hentry]
    rw [ih ⟨s0.rows ++ [entryToRow e]⟩ (List.nodup_cons.1 hids).2 hdisj']
    simp [List.append_assoc]

/-- **C5.** Exporting a well-formed store and importing (without `--new-ids`)
into an empty store reports `(count s, 0)` errors and yields a store whose
full `created`-sorted listing equals the source's listing field-for-field on
every listed field — id, content, metadata, created_at, updated_at,
last_accessed and access_count — the vector column being dropped by a
default export. -/
theorem claim_C5 (s : Store) (hwf : WF s) :
    (cmdImport ⟨[]⟩ (cmdExport s false)).2 = (count s, 0) ∧
    listMems (cmdImport ⟨[]⟩ (cmdExport s false)).1 none .created
        (count (cmdImport ⟨[]⟩ (cmdExport s false)).1) 0 none none =
      (listMems s none .created (count s) 0 none none).map stripVector ∧
    (listMems (cmdImport ⟨[]⟩ (cmdExport s false)).1 none .created
        (count (cmdImport ⟨[]⟩ (cmdExport s false)).1) 0 none none).map
          listedFields =
      (listMems s none .created (count s) 0 none none).map listedFields := by
  have hids : ((sortedRows s).map Mem.id).Nodup :=
    ((List.perm_insertionSort _ s.rows).map Mem.id).nodup_iff.2 hwf.1
  have hexp := cmdExport_eq s false
  have heids : ((cmdExport s false).map ExportEntry.id).Nodup := by
    rw [hexp, List.map_map]
    exact hids
  have himp := cmdImport_clean (cmdExport s false) ⟨[]⟩ heids (by simp)
  have hrows : (cmdImport ⟨[]⟩ (cmdExport s false)).1.rows =
      (sortedRows s).map stripVector := by
    rw [himp, hexp]
    simp only [List.nil_append, List.map_map]
    rfl
  have hcnt2 : (cmdImport ⟨[]⟩ (cmdExport s false)).2 = (count s, 0) := by
    rw [himp, hexp]
    simp only [List.length_map]
    unfold sortedRows count
    rw [List.length_insertionSort]
  have hss : (sortedRows s).insertionSort (lexLe (listKey .created) Mem.id) =
      sortedRows s :=
    List.Sorted.insertionSort_eq (List.sorted_insertionSort _ s.rows)
  refine ⟨hcnt2, ?_, ?_⟩
  · rw [listMems_all, listMems_all]
    rw [show (cmdImport ⟨[]⟩ (cmdExport s false)).1 =
      Store.mk ((sortedRows s).map stripVector) from by
        rw [← hrows]]
    show ((sortedRows s).map stripVector).insertionSort
        (lexLe (listKey .created) Mem.id) = _
    rw [← List.map_insertionSort (r := lexLe (listKey .created) Mem.id)
      (s := lexLe (listKey .created) Mem.id) stripVector (sortedRows s)
      (fun a _ b _ => Iff.rfl)]
    rw [hss]
  · rw [listMems_all, listMems_all]
    rw [show (cmdImport ⟨[]⟩ (cmdExport s false)).1 =
      Store.mk ((sortedRows s).map stripVector) from by
        rw [← hrows]]
    show (((sortedRows s).map stripVector).insertionSort
        (lexLe (listKey .created) Mem.id)).map listedFields = _
    rw [← List.map_insertionSort (r := lexLe (listKey .created) Mem.id)
      (s := lexLe (listKey .created) Mem.id) stripVector (sortedRows s)
      (fun a _ b _ => Iff.rfl)]
    rw [hss]
    rw [List.map_map]
    rfl

/-- Witness for C5 at a two-row store with access history. -/
theorem claim_C5_witness :
    (cmdImport ⟨[]⟩ (cmdExport
        ⟨[{ mkRow "aaaa1111" "one" (some [("k", .jint 7)]) (some [1, 0]) 5 with
            last_accessed := some 9, access_count := 3 },
          mkRow "bbbb2222" "two" none none 6]⟩ false)).2 = (2, 0) ∧
    (listMems (cmdImport ⟨[]⟩ (cmdExport
        ⟨[{ mkRow "aaaa1111" "one" (some [("k", .jint 7)]) (some [1, 0]) 5 with
            last_accessed := some 9, access_count := 3 },
          mkRow "bbbb2222" "two" none none 6]⟩ false)).1 none .created 2 0
        none none).map listedFields =
      (listMems
        ⟨[{ mkRow "aaaa1111" "one" (some [("k", .jint 7)]) (some [1, 0]) 5 with
            last_accessed := some 9, access_count := 3 },
          mkRow "bbbb2222" "two" none none 6]⟩ none .created 2 0
        none none).map listedFields := by
  have h := claim_C5
    ⟨[{ mkRow "aaaa1111" "one" (some [("k", .jint 7)]) (some [1, 0]) 5 with
        last_accessed := some 9, access_count := 3 },
      mkRow "bbbb2222" "two" none none 6]⟩ (by constructor <;> decide)
  refine ⟨h.1, ?_⟩
  have h2 := h.2.2
  rw [show count (cmdImport ⟨[]⟩ (cmdExport
      ⟨[{ mkRow "aaaa1111" "one" (some [("k", .jint 7)]) (some [1, 0]) 5 with
          last_accessed := some 9, access_count := 3 },
        mkRow "bbbb2222" "two" none none 6]⟩ false)).1 = 2 from by
    have := congrArg Prod.fst h.1
    unfold count at *
    rw [show (cmdImport ⟨[]⟩ (cmdExport
      ⟨[{ mkRow "aaaa1111" "one" (some [("k", .jint 7)]) (some [1, 0]) 5 with
          last_accessed := some 9, access_count := 3 },
        mkRow "bbbb2222" "two" none none 6]⟩ false)).2.1 =
      (cmdImport ⟨[]⟩ (cmdExport
      ⟨[{ mkRow "aaaa1111" "one" (some [("k", .jint 7)]) (some [1, 0]) 5 with
          last_accessed := some 9, access_count := 3 },
        mkRow "bbbb2222" "two" none none 6]⟩ false)).1.rows.length from by decide] at this
    exact this] at h2
  exact h2


/-! ## Hybrid RRF lemmas -/

theorem alookup_bump_self (x : String) (c : ℚ) :
    ∀ acc : List (String × ℚ),
      alookup (bump acc x c) x = some ((alookup acc x).getD 0 + c) := by
  intro acc
  induction acc with
  | nil => simp [bump, alookup]
  | cons kv rest ih =>
    obtain ⟨k, v⟩ := kv
    by_cases hk : k = x
    · simp [bump, alookup, hk]
    · simp [bump, alookup, hk, ih]

theorem alookup_bump_ne {y x : String} (h : y ≠ x) (c : ℚ) :
    ∀ acc : List (String × ℚ), alookup (bump acc x c) y = alookup acc y := by
  intro acc
  induction acc with
  | nil => simp [bump, alookup, Ne.symm h]
  | cons kv rest ih =>
    obtain ⟨k, v⟩ := kv
    by_cases hk : k = x
    · subst hk
      simp [bump, alookup, Ne.symm h]
    · by_cases hky : k = y <;> simp [bump, alookup, hk, hky, ih, h]

theorem addContribs_lookup_not_mem {x : String} :
    ∀ (ids : List String) (acc : List (String × ℚ)) (r : ℕ), x ∉ ids →
      alookup (addContribs acc r ids) x = alookup acc x := by
  intro ids
  induction ids with
  | nil => intro acc r _; rfl
  | cons y ys ih =>
    intro acc r h
    have hxy : x ≠ y := fun he => h (he ▸ List.mem_cons_self y ys)
    have hys : x ∉ ys := fun he => h (List.mem_cons_of_mem y he)
    show alookup (addContribs (bump acc y (1 / (60 + (r : ℚ)))) (r + 1) ys) x
        = alookup acc x
    rw [ih _ _ hys, alookup_bump_ne hxy]

theorem addContribs_lookup_mem {x : String} :
    ∀ (ids : List String) (acc : List (String × ℚ)) (r i : ℕ), ids.Nodup →
      ids.findIdx? (· = x) = some i →
      alookup (addContribs acc r ids) x =
        some ((alookup acc x).getD 0 + 1 / (60 + ((r : ℚ) + (i : ℚ)))) := by
  intro ids
  induction ids with
  | nil => intro acc r i _ hfind; simp at hfind
  | cons y ys ih =>
    intro acc r i hnd hfind
    rw [List.findIdx?_cons] at hfind
    by_cases hy : y = x
    · rw [if_pos (by simp [hy])] at hfind
      injection hfind with h0
      have hxys : x ∉ ys := fun hm =>
        (List.nodup_cons.1 hnd).1 (by rw [← hy] at hm; exact hm)
      show alookup (addContribs (bump acc y (1 / (60 + (r : ℚ)))) (r + 1) ys) x
          = some ((alookup acc x).getD 0 + 1 / (60 + ((r : ℚ) + (i : ℚ))))
      rw [addContribs_lookup_not_mem ys _ _ hxys, hy, alookup_bump_self]
      rw [← h0]
      norm_num
    · rw [if_neg (by simp [hy])] at hfind
      rw [List.findIdx?_succ] at hfind
      cases hj : ys.findIdx? (· = x) with
      | none => rw [hj] at hfind; simp at hfind
      | some j =>
        rw [hj] at hfind
        simp only [Option.map_some'] at hfind
        injection hfind with h0
        subst h0
        show alookup (addContribs (bump acc y (1 / (60 + (r : ℚ)))) (r + 1) ys) x
            = some ((alookup acc x).getD 0 + 1 / (60 + ((r : ℚ) + ((j + 1 : ℕ) : ℚ))))
        rw [ih _ (r + 1) j (List.nodup_cons.1 hnd).2 hj]
        rw [alookup_bump_ne (fun he => hy he.symm)]
        congr 2
        push_cast
        ring

theorem findIdx_of_mem_eq {x : String} {ids : List String} (h : x ∈ ids) :
    ∃ i, ids.findIdx? (· = x) = some i := by
  cases hf : ids.findIdx? (· = x) with
  | some i => exact ⟨i, rfl⟩
  | none =>
    have := List.findIdx?_eq_none_iff.1 hf x h
    simp at this

theorem findIdx_of_not_mem {x : String} {ids : List String} (h : x ∉ ids) :
    ids.findIdx? (· = x) = none :=
  List.findIdx?_eq_none_iff.2 (fun y hy => by
    simp only [decide_eq_false_iff_not]
    exact fun he => h (he ▸ hy))

theorem contrib_of_findIdx {ids : List String} {x : String} {i : ℕ}
    (h : ids.findIdx? (· = x) = some i) :
    contrib ids x = 1 / (60 + ((i + 1 : ℕ) : ℚ)) := by
  unfold contrib
  rw [h]

theorem contrib_of_not_mem {ids : List String} {x : String} (h : x ∉ ids) :
    contrib ids x = 0 := by
  unfold contrib
  rw [findIdx_of_not_mem h]

theorem fusedScore_eq {vIds tIds : List String} (hv : vIds.Nodup) (ht : tIds.Nodup)
    (x : String) (hx : x ∈ vIds ∨ x ∈ tIds) :
    fusedScore (rrfScores vIds tIds) x = contrib vIds x + contrib tIds x := by
  unfold fusedScore rrfScores
  by_cases hxt : x ∈ tIds
  · obtain ⟨i, hi⟩ := findIdx_of_mem_eq hxt
    rw [addContribs_lookup_mem tIds _ 1 i ht hi]
    by_cases hxv : x ∈ vIds
    · obtain ⟨j, hj⟩ := findIdx_of_mem_eq hxv
      rw [addContribs_lookup_mem vIds [] 1 j hv hj]
      rw [contrib_of_findIdx hj, contrib_of_findIdx hi]
      simp only [alookup, Option.getD_some, Option.getD_none]
      push_cast
      ring
    · rw [addContribs_lookup_not_mem vIds [] 1 hxv]
      rw [contrib_of_not_mem hxv, contrib_of_findIdx hi]
      simp only [alookup, Option.getD_some, Option.getD_none]
      push_cast
      ring
  · have hxv : x ∈ vIds := hx.resolve_right hxt
    obtain ⟨j, hj⟩ := findIdx_of_mem_eq hxv
    rw [addContribs_lookup_not_mem tIds _ 1 hxt]
    rw [addContribs_lookup_mem vIds [] 1 j hv hj]
    rw [contrib_of_findIdx hj, contrib_of_not_mem hxt]
    simp only [alookup, Option.getD_some, Option.getD_none]
    push_cast
    ring

theorem dedupFirstAux_map_key {β : Type} [DecidableEq β] (key : β → String) :
    ∀ (l : List β) (seen : List String),
      (dedupFirstAux key seen l).map key =
        dedupFirstAux (fun x : String => x) seen (l.map key) := by
  intro l
  induction l with
  | nil => intro seen; rfl
  | cons x xs ih =>
    intro seen
    by_cases h : key x ∈ seen <;> simp [dedupFirstAux, h, ih]

theorem dedupFirstAux_sub {β : Type} [DecidableEq β] (key : β → String) :
    ∀ (l : List β) (seen : List String) (x : β),
      x ∈ dedupFirstAux key seen l → x ∈ l := by
  intro l
  induction l with
  | nil => intro seen x h; exact absurd h (List.not_mem_nil x)
  | cons y ys ih =>
    intro seen x h
    simp only [dedupFirstAux] at h
    by_cases hk : key y ∈ seen
    · rw [if_pos hk] at h
      exact List.mem_cons_of_mem y (ih seen x h)
    · rw [if_neg hk] at h
      rcases List.mem_cons.1 h with h1 | h1
      · exact List.mem_cons.2 (Or.inl h1)
      · exact List.mem_cons_of_mem y (ih _ x h1)

theorem dedupFirstAux_keys_nodup {β : Type} [DecidableEq β] (key : β → String) :
    ∀ (l : List β) (seen : List String),
      ((dedupFirstAux key seen l).map key).Nodup ∧
        ∀ y ∈ (dedupFirstAux key seen l).map key, y ∉ seen := by
  intro l
  induction l with
  | nil =>
    intro seen
    exact ⟨List.nodup_nil, fun y hy => absurd hy (List.not_mem_nil y)⟩
  | cons x xs ih =>
    intro seen
    by_cases h : key x ∈ seen
    · simpa [dedupFirstAux, h] using ih seen
    · have ihc := ih (key x :: seen)
      constructor
      · simp only [dedupFirstAux, if_neg h, List.map_cons]
        exact List.nodup_cons.2
          ⟨fun hm => (ihc.2 _ hm) (List.mem_cons_self _ _), ihc.1⟩
      · intro y hy
        simp only [dedupFirstAux, if_neg h, List.map_cons, List.mem_cons] at hy
        rcases hy with rfl | hy
        · exact h
        · exact fun hs => (ihc.2 y hy) (List.mem_cons_of_mem _ hs)

theorem insertionSort_congr {γ : Type} (r s : γ → γ → Prop)
    [DecidableRel r] [DecidableRel s] (l : List γ)
    (h : ∀ a ∈ l, ∀ b ∈ l, r a b ↔ s a b) :
    l.insertionSort r = l.insertionSort s := by
  have hm := List.map_insertionSort r s (fun x : γ => x) l h
  simpa using hm

theorem nodup_ids_take_sort {K : Type} [LinearOrder K] (key : Mem → K)
    (p : Mem → Bool) (rows : List Mem) (h : (rows.map Mem.id).Nodup) (n : ℕ) :
    ((((rows.filter p).insertionSort (lexLe key Mem.id)).take n).map Mem.id).Nodup := by
  have h1 : ((rows.filter p).map Mem.id).Nodup :=
    List.Sublist.nodup ((List.filter_sublist rows).map Mem.id) h
  have h2 := (((List.perm_insertionSort (lexLe key Mem.id)
    (rows.filter p))).map Mem.id).nodup_iff.2 h1
  exact ((List.take_sublist n _).map Mem.id).nodup h2

theorem nodup_ids_vecTopK {s : Store} (hwf : WF s) (q : List ℚ)
    (filt : Option Metadata) (b a : Option ℚ) (limit : ℕ) :
    ((vecTopK s q filt b a limit).map Mem.id).Nodup := by
  unfold vecTopK vecSearch
  exact nodup_ids_take_sort _ _ _ hwf.1 _

theorem nodup_ids_textTopK {P : Ports} {s : Store} (hwf : WF s) (txt : String)
    (filt : Option Metadata) (b a : Option ℚ) (limit : ℕ) :
    ((textTopK P s txt filt b a limit).map Mem.id).Nodup := by
  unfold textTopK textSearch
  exact nodup_ids_take_sort _ _ _ hwf.1 _

theorem rrfFusion_impl_eq_spec (vIds tIds : List String)
    (hv : vIds.Nodup) (ht : tIds.Nodup) (limit : ℕ) (cands : List Mem)
    (hcands : cands.map Mem.id =
      dedupFirstAux (fun x : String => x) [] (vIds ++ tIds)) :
    ((cands.insertionSort
        (lexLe (fun m => hybridKey (rrfScores vIds tIds) vIds tIds m.id) Mem.id)).take
      limit).map (fun m => (m.id, fusedScore (rrfScores vIds tIds) m.id)) =
      rrfFusionSpec vIds tIds limit := by
  have hsub : ∀ x ∈ dedupFirstAux (fun x : String => x) [] (vIds ++ tIds),
      x ∈ vIds ∨ x ∈ tIds := fun x hx =>
    List.mem_append.1 (dedupFirstAux_sub (fun x : String => x) _ [] x hx)
  have hfs : ∀ x, x ∈ vIds ∨ x ∈ tIds →
      fusedScore (rrfScores vIds tIds) x = contrib vIds x + contrib tIds x :=
    fun x hx => fusedScore_eq hv ht x hx
  have hk : ∀ x, x ∈ vIds ∨ x ∈ tIds →
      hybridKey (rrfScores vIds tIds) vIds tIds x =
        toLex (-(contrib vIds x + contrib tIds x),
          toLex (rankIn vIds x, rankIn tIds x)) := by
    intro x hx
    unfold hybridKey
    rw [hfs x hx]
  have hiff : ∀ x ∈ dedupFirstAux (fun x : String => x) [] (vIds ++ tIds),
      ∀ y ∈ dedupFirstAux (fun x : String => x) [] (vIds ++ tIds),
      lexLe (fun x : String => hybridKey (rrfScores vIds tIds) vIds tIds x)
        (fun x : String => x) x y ↔
      lexLe (fun x : String =>
          toLex (-(contrib vIds x + contrib tIds x),
            toLex (rankIn vIds x, rankIn tIds x))) (fun x : String => x) x y := by
    intro x hx y hy
    simp only [lexLe]
    rw [hk x (hsub x hx), hk y (hsub y hy)]
  have hpair : ∀ x ∈ (dedupFirstAux (fun x : String => x) [] (vIds ++ tIds)).insertionSort
      (lexLe (fun x : String =>
          toLex (-(contrib vIds x + contrib tIds x),
            toLex (rankIn vIds x, rankIn tIds x))) (fun x : String => x)),
      (fun x : String => (x, fusedScore (rrfScores vIds tIds) x)) x =
        (fun x : String => (x, contrib vIds x + contrib tIds x)) x := by
    intro x hx
    have hx' := (List.mem_insertionSort _).1 hx
    show (x, fusedScore (rrfScores vIds tIds) x) =
      (x, contrib vIds x + contrib tIds x)
    rw [hfs x (hsub x hx')]
  rw [List.map_take]
  rw [show (fun m : Mem => (m.id, fusedScore (rrfScores vIds tIds) m.id)) =
      ((fun x : String => (x, fusedScore (rrfScores vIds tIds) x)) ∘ Mem.id) from rfl]
  rw [← List.map_map]
  rw [List.map_insertionSort
    (lexLe (fun m : Mem => hybridKey (rrfScores vIds tIds) vIds tIds m.id) Mem.id)
    (lexLe (fun x : String => hybridKey (rrfScores vIds tIds) vIds tIds x)
      (fun x : String => x)) Mem.id cands (fun a _ b _ => Iff.rfl)]
  rw [hcands]
  rw [insertionSort_congr
    (lexLe (fun x : String => hybridKey (rrfScores vIds tIds) vIds tIds x)
      (fun x : String => x))
    (lexLe (fun x : String =>
        toLex (-(contrib vIds x + contrib tIds x),
          toLex (rankIn vIds x, rankIn tIds x))) (fun x : String => x))
    (dedupFirstAux (fun x : String => x) [] (vIds ++ tIds)) hiff]
  rw [List.map_congr_left hpair]
  rfl

/-- C3: for every hybrid search (text query and vector both present, not
text-only), the dispatcher runs hybrid fusion; the candidate pools are the
filtered vector-search top K and the filtered text-search top K with
K = max(limit × 4, 50); the returned `(id, score)` pairs equal
reciprocal-rank fusion as the claim words it: each id at 1-based rank `r` in
either list contributes `1/(60 + r)`, contributions are summed per id,
candidates are ordered by sum descending then vector-rank ascending then
text-rank ascending then id ascending, the top `limit` are returned, and every
returned score is the fused sum of the two rank contributions. -/
theorem claim_C3 (P : Ports) (s : Store) (q : List ℚ) (txt : String)
    (filt : Option Metadata) (b a : Option ℚ) (limit : ℕ) (hwf : WF s) :
    searchMems P s (some q) (some txt) filt limit false b a =
      hybridSearch P s q txt filt b a limit ∧
    hybridK limit = max (limit * 4) 50 ∧
    vecTopK s q filt b a limit = vecSearch s q filt b a (hybridK limit) ∧
    textTopK P s txt filt b a limit = textSearch P s txt filt b a (hybridK limit) ∧
    hybridResults P s q txt filt b a limit =
      rrfFusionSpec ((vecTopK s q filt b a limit).map Mem.id)
        ((textTopK P s txt filt b a limit).map Mem.id) limit ∧
    ∀ pr ∈ rrfFusionSpec ((vecTopK s q filt b a limit).map Mem.id)
        ((textTopK P s txt filt b a limit).map Mem.id) limit,
      pr.2 = contrib ((vecTopK s q filt b a limit).map Mem.id) pr.1 +
        contrib ((textTopK P s txt filt b a limit).map Mem.id) pr.1 := by
  have hvn := nodup_ids_vecTopK hwf q filt b a limit
  have htn := nodup_ids_textTopK (P := P) hwf txt filt b a limit
  refine ⟨rfl, rfl, rfl, rfl, ?_, ?_⟩
  · refine rrfFusion_impl_eq_spec _ _ hvn htn limit
      (dedupFirstAux Mem.id []
        (vecTopK s q filt b a limit ++ textTopK P s txt filt b a limit)) ?_
    rw [dedupFirstAux_map_key Mem.id, List.map_append]
  · intro pr hpr
    simp only [rrfFusionSpec] at hpr
    have h1 := List.mem_of_mem_take hpr
    obtain ⟨x, _, hxe⟩ := List.mem_map.1 h1
    rw [← hxe]

/-- C8: search is deterministic — two runs on the same state and arguments
return the same list in the same order — and in every dispatch mode the
returned list is strictly ordered by the mode's sort key with any remaining
tie broken by id ascending; the tie-break relation is total on rows with
distinct ids. -/
theorem claim_C8 (P : Ports) (s : Store) (vector : Option (List ℚ))
    (text : Option String) (filt : Option Metadata) (limit : ℕ)
    (tOnly : Bool) (b a : Option ℚ) (hwf : WF s) :
    searchMems P s vector text filt limit tOnly b a =
      searchMems P s vector text filt limit tOnly b a ∧
    (searchMems P s vector text filt limit tOnly b a).Pairwise
      (searchStrictLt P s vector text filt limit tOnly b a) ∧
    (∀ x y : Mem, x.id ≠ y.id →
      searchStrictLt P s vector text filt limit tOnly b a x y ∨
        searchStrictLt P s vector text filt limit tOnly b a y x) := by
  have hfn : ∀ p : Mem → Bool,
      ((s.rows.filter p).map Mem.id).Nodup := fun p =>
    List.Sublist.nodup ((List.filter_sublist s.rows).map Mem.id) hwf.1
  refine ⟨rfl, ?_, ?_⟩
  · unfold searchMems searchStrictLt
    by_cases ht : tOnly
    · rw [if_pos ht, if_pos ht]
      rcases text with _ | qt
      · rcases vector with _ | v
        · exact pairwise_lexLt_take_sort _ _ _ _ (hfn _)
        · exact pairwise_lexLt_take_sort _ _ _ _ (hfn _)
      · exact pairwise_lexLt_take_sort _ _ _ _ (hfn _)
    · rw [if_neg ht, if_neg ht]
      rcases vector with _ | v <;> rcases text with _ | qt
      · exact pairwise_lexLt_take_sort _ _ _ _ (hfn _)
      · rcases hpe : P.embed qt with _ | v0 <;> simp only [hpe]
        · exact pairwise_lexLt_take_sort _ _ _ _ (hfn _)
        · exact pairwise_lexLt_take_sort _ _ _ _
            (dedupFirstAux_keys_nodup Mem.id _ []).1
      · exact pairwise_lexLt_take_sort _ _ _ _ (hfn _)
      · exact pairwise_lexLt_take_sort _ _ _ _
          (dedupFirstAux_keys_nodup Mem.id _ []).1
  · intro x y hxy
    unfold searchStrictLt
    by_cases ht : tOnly
    · rw [if_pos ht]
      rcases text with _ | qt
      · rcases vector with _ | v
        · exact lexLt_total_of_ne hxy
        · exact lexLt_total_of_ne hxy
      · exact lexLt_total_of_ne hxy
    · rw [if_neg ht]
      rcases vector with _ | v <;> rcases text with _ | qt
      · exact lexLt_total_of_ne hxy
      · rcases hpe : P.embed qt with _ | v0 <;> simp only [hpe]
        · exact lexLt_total_of_ne hxy
        · exact lexLt_total_of_ne hxy
      · exact lexLt_total_of_ne hxy
      · exact lexLt_total_of_ne hxy

/-- Witness for C3 at a concrete two-row store and FTS port. -/
theorem claim_C3_witness :
    WF ⟨[mkRow "a" "x" none (some [1]) 0, mkRow "b" "y" none (some [2]) 0]⟩ ∧
    hybridResults ⟨fun _ => none, fun _ c => if c = "x" then some 1 else none⟩
        ⟨[mkRow "a" "x" none (some [1]) 0, mkRow "b" "y" none (some [2]) 0]⟩
        [1] "x" none none none 2 =
      rrfFusionSpec
        ((vecTopK ⟨[mkRow "a" "x" none (some [1]) 0,
            mkRow "b" "y" none (some [2]) 0]⟩ [1] none none none 2).map Mem.id)
        ((textTopK ⟨fun _ => none, fun _ c => if c = "x" then some 1 else none⟩
            ⟨[mkRow "a" "x" none (some [1]) 0,
              mkRow "b" "y" none (some [2]) 0]⟩ "x" none none none 2).map
          Mem.id) 2 :=
  ⟨by constructor <;> decide,
    (claim_C3 ⟨fun _ => none, fun _ c => if c = "x" then some 1 else none⟩
      ⟨[mkRow "a" "x" none (some [1]) 0, mkRow "b" "y" none (some [2]) 0]⟩
      [1] "x" none none none 2 (by constructor <;> decide)).2.2.2.2.1⟩

/-- Witness for C8 at a concrete two-row store in text-only mode. -/
theorem claim_C8_witness :
    WF ⟨[mkRow "a" "x" none (some [1]) 0, mkRow "b" "y" none (some [2]) 0]⟩ ∧
    (searchMems ⟨fun _ => none, fun _ _ => some 1⟩
        ⟨[mkRow "a" "x" none (some [1]) 0, mkRow "b" "y" none (some [2]) 0]⟩
        none (some "x") none 2 true none none).Pairwise
      (searchStrictLt ⟨fun _ => none, fun _ _ => some 1⟩
        ⟨[mkRow "a" "x" none (some [1]) 0, mkRow "b" "y" none (some [2]) 0]⟩
        none (some "x") none 2 true none none) :=
  ⟨by constructor <;> decide,
    (claim_C8 ⟨fun _ => none, fun _ _ => some 1⟩
      ⟨[mkRow "a" "x" none (some [1]) 0, mkRow "b" "y" none (some [2]) 0]⟩
      none (some "x") none 2 true none none (by constructor <;> decide)).2.1⟩

end Memori
